import Mathlib

/-!
# CHIP-8 interpreter core: shallow embedding and verified properties

The definitions follow `src/src/chip8.cpp` (classes `Memory` and `CPU` declared in
`src/inc/chip8.h`) function by function, and `decrementTimers` of `src/src/main.cpp`.

Modelling conventions
* `uint8_t` / `uint16_t` values are natural numbers; every C++ operation that can leave
  the type's range is followed by an explicit `% 256` / `% 65536`.
* The fixed-size vectors `ram` (4096 bytes), `display` (64 * 32 cells), `v` (16 registers)
  and `keyState` (16 keys) are maps from an index to a value.  The vectors are never
  resized, so an access is in bounds exactly when the index is below the constructor's
  size; an access outside (undefined behaviour of `operator[]`) is a `Fault`.
* `std::stack<uint16_t>` is a list whose head is the top; `top`/`pop` on the empty stack
  is a `Fault`.
* `rand()` is an extra argument of `decodeAndExecute`; console logging is not modelled.
* `loadRom` takes the content of the file as a list of bytes; opening and reading the file
  are not modelled.
-/

namespace Chip8

/-! ## Data model -/

/-- Display width, `constexpr uint8_t width = 64`. -/
def width : Nat := 64

/-- Display height, `constexpr uint8_t length = 32`. -/
def length : Nat := 32

/-- Load address of programs, `constexpr uint16_t programEntry = 0x200`. -/
def programEntry : Nat := 0x200

/-- Size of `ram`, from `ram(4096, 0)`. -/
def ramSize : Nat := 4096

/-- Size of `display`, from `display(width * length, 0)`. -/
def displaySize : Nat := width * length

/-- Number of general registers, from `v(16, 0)`. -/
def regCount : Nat := 16

/-- Number of keys, from `keyState(16, false)`. -/
def keyCount : Nat := 16

/-- Undefined behaviour the C++ code can run into. -/
inductive Fault where
  | ramOutOfBounds
  | displayOutOfBounds
  | stackUnderflow
  | keyOutOfBounds
  deriving DecidableEq, Repr

/-- Assignment `f[i] = a` on a vector seen as a map. -/
def write {α : Type} (f : Nat → α) (i : Nat) (a : α) : Nat → α :=
  fun k => if k = i then a else f k

/-- Class `Memory` of `chip8.h`. -/
structure Memory where
  ram : Nat → Nat
  stack : List Nat
  delayTimer : Nat
  soundTimer : Nat
  display : Nat → Nat

/-- Class `CPU` of `chip8.h`. -/
structure CPU where
  pc : Nat
  iReg : Nat
  v : Nat → Nat
  lastKeyReleased : Int
  keyState : Nat → Bool

/-- The built-in hexadecimal font of `Memory::Memory`. -/
def fontData : List Nat :=
  [0xF0, 0x90, 0x90, 0x90, 0xF0,
   0x20, 0x60, 0x20, 0x20, 0x70,
   0xF0, 0x10, 0xF0, 0x80, 0xF0,
   0xF0, 0x10, 0xF0, 0x10, 0xF0,
   0x90, 0x90, 0xF0, 0x10, 0x10,
   0xF0, 0x80, 0xF0, 0x10, 0xF0,
   0xF0, 0x80, 0xF0, 0x90, 0xF0,
   0xF0, 0x10, 0x20, 0x40, 0x40,
   0xF0, 0x90, 0xF0, 0x90, 0xF0,
   0xF0, 0x90, 0xF0, 0x10, 0xF0,
   0xF0, 0x90, 0xF0, 0x90, 0x90,
   0xE0, 0x90, 0xE0, 0x90, 0xE0,
   0xF0, 0x80, 0x80, 0x80, 0xF0,
   0xE0, 0x90, 0x90, 0x90, 0xE0,
   0xF0, 0x80, 0xF0, 0x80, 0xF0,
   0xF0, 0x80, 0xF0, 0x80, 0x80]

/-- Constructor `Memory::Memory()`: zeroed RAM with the font copied to its start, empty
stack, both timers zero, display zeroed. -/
def Memory.new : Memory :=
  { ram := fun i => fontData.getD i 0
    stack := []
    delayTimer := 0
    soundTimer := 0
    display := fun _ => 0 }

/-- Constructor `CPU::CPU()`. -/
def CPU.new : CPU :=
  { pc := 0x200
    iReg := 0
    v := fun _ => 0
    lastKeyReleased := -1
    keyState := fun _ => false }

/-! ## Operations -/

/-- Wrapping `uint8_t` subtraction `a - b`. -/
def sub8 (a b : Nat) : Nat := (a + (256 - b % 256)) % 256

/-- Method `CPU::fetch`: the big-endian word at `pc`, and `pc += 2`. -/
def fetch (c : CPU) (mem : Memory) : Except Fault (Nat × CPU) :=
  if c.pc + 1 < ramSize then
    let msb := (mem.ram c.pc <<< 8) % 65536
    let lsb := mem.ram (c.pc + 1)
    let instruction := msb ||| lsb
    .ok (instruction, { c with pc := (c.pc + 2) % 65536 })
  else .error .ramOutOfBounds

/-- Method `CPU::decode0`: `00E0` clears the display, `00EE` returns. -/
def decode0 (c : CPU) (mem : Memory) (nnn : Nat) : Except Fault (CPU × Memory) :=
  match nnn with
  | 0x0E0 =>
    .ok (c, { mem with
      display := (List.range length).foldl
        (fun d i => (List.range width).foldl (fun d j => write d (i * width + j) 0) d)
        mem.display })
  | 0x0EE =>
    match mem.stack with
    | [] => .error .stackUnderflow
    | top :: rest => .ok ({ c with pc := top }, { mem with stack := rest })
  | _ => .ok (c, mem)

/-- Method `CPU::decode8`: register-to-register arithmetic.  Each C++ statement is one
`write`; a right-hand side reads the register file as the statements before it left it. -/
def decode8 (c : CPU) (x y n : Nat) : CPU :=
  let prev := c.v x
  match n with
  | 0x00 => { c with v := write c.v x (c.v y) }
  | 0x01 =>
    let v1 := write c.v x (c.v x ||| c.v y)
    { c with v := write v1 0x0F 0 }
  | 0x02 =>
    let v1 := write c.v x (c.v x &&& c.v y)
    { c with v := write v1 0x0F 0 }
  | 0x03 =>
    let v1 := write c.v x (c.v x ^^^ c.v y)
    { c with v := write v1 0x0F 0 }
  | 0x04 =>
    let v1 := write c.v x ((c.v x + c.v y) % 256)
    { c with v := write v1 0x0F (if v1 x < prev then 1 else 0) }
  | 0x05 =>
    let v1 := write c.v x (sub8 (c.v x) (c.v y))
    { c with v := write v1 0x0F (if v1 x < prev then 1 else 0) }
  | 0x06 =>
    let v1 := write c.v x (c.v y >>> 1)
    { c with v := write v1 0x0F (v1 y &&& 1) }
  | 0x07 =>
    let v1 := write c.v x (sub8 (c.v y) (c.v x))
    { c with v := write v1 0x0F (if v1 x < v1 y then 1 else 0) }
  | 0x0E =>
    let v1 := write c.v x ((c.v y <<< 1) % 256)
    { c with v := write v1 0x0F ((v1 y &&& 128) >>> 7) }
  | _ => c

/-- Inner loop of `CPU::drawGraphics`, `for (int8_t j = 7; j >= 0; --j)`.  The first
argument is `j + 1`, the number of sprite bits still to draw in this row. -/
def drawRow (sprite yCoord : Nat) :
    Nat → Nat → (Nat → Nat) → (Nat → Nat) → Except Fault ((Nat → Nat) × (Nat → Nat))
  | 0, _, v, display => .ok (v, display)
  | j + 1, xCoord, v, display =>
    let index := (yCoord * width + xCoord) % 65536
    if index < displaySize then
      let prev := display index
      let display := write display index (display index ^^^ ((sprite >>> j) &&& 1))
      let curr := display index
      let v := if prev ≠ 0 ∧ curr = 0 then write v 0x0F 1 else v
      let xCoord := (xCoord + 1) % 256
      if xCoord > 63 then .ok (v, display)
      else drawRow sprite yCoord j xCoord v display
    else .error .displayOutOfBounds

/-- Outer loop of `CPU::drawGraphics`, `for (uint8_t i = 0; i < n; ++i)`.  The first
argument is `n - i`, the number of sprite rows still to draw. -/
def drawRows (ram : Nat → Nat) (iReg x : Nat) :
    Nat → Nat → Nat → Nat → (Nat → Nat) → (Nat → Nat) →
      Except Fault ((Nat → Nat) × (Nat → Nat))
  | 0, _, _, _, v, display => .ok (v, display)
  | k + 1, i, xCoord, yCoord, v, display =>
    if iReg + i < ramSize then
      let sprite := ram (iReg + i)
      match drawRow sprite yCoord 8 xCoord v display with
      | .error e => .error e
      | .ok (v, display) =>
        let xCoord := v x &&& 63
        let yCoord := (yCoord + 1) % 256
        if yCoord > 31 then .ok (v, display)
        else drawRows ram iReg x k (i + 1) xCoord yCoord v display
    else .error .ramOutOfBounds

/-- Method `CPU::drawGraphics` (opcode `Dxyn`). -/
def drawGraphics (c : CPU) (mem : Memory) (x y n : Nat) : Except Fault (CPU × Memory) :=
  let xCoord := c.v x % width
  let yCoord := c.v y % length
  let v := write c.v 0x0F 0
  match drawRows mem.ram c.iReg x n 0 xCoord yCoord v mem.display with
  | .error e => .error e
  | .ok (v, display) => .ok ({ c with v := v }, { mem with display := display })

/-- Method `CPU::decodeE`: the key lookup `keyState[v[x]]` comes before the dispatch. -/
def decodeE (c : CPU) (x nn : Nat) : Except Fault CPU :=
  if c.v x < keyCount then
    let keyPressed := c.keyState (c.v x)
    match nn with
    | 0x9E => .ok (if keyPressed then { c with pc := (c.pc + 2) % 65536 } else c)
    | 0xA1 => .ok (if !keyPressed then { c with pc := (c.pc + 2) % 65536 } else c)
    | _ => .ok c
  else .error .keyOutOfBounds

/-- Loop of `Fx55`, `for (uint8_t i = 0; i <= x; ++i)`: `ram[iReg] = v[i]; ++iReg`.  The
first argument is `x + 1 - i`, the number of registers still to store. -/
def storeRegs : Nat → Nat → CPU → Memory → Except Fault (CPU × Memory)
  | 0, _, c, mem => .ok (c, mem)
  | k + 1, i, c, mem =>
    if c.iReg < ramSize then
      storeRegs k (i + 1) { c with iReg := (c.iReg + 1) % 65536 }
        { mem with ram := write mem.ram c.iReg (c.v i) }
    else .error .ramOutOfBounds

/-- Loop of `Fx65`, `for (uint8_t i = 0; i <= x; ++i)`: `v[i] = ram[iReg]; ++iReg`.  The
first argument is `x + 1 - i`, the number of registers still to load. -/
def loadRegs (mem : Memory) : Nat → Nat → CPU → Except Fault CPU
  | 0, _, c => .ok c
  | k + 1, i, c =>
    if c.iReg < ramSize then
      loadRegs mem k (i + 1)
        { c with v := write c.v i (mem.ram c.iReg), iReg := (c.iReg + 1) % 65536 }
    else .error .ramOutOfBounds

/-- Method `CPU::decodeF`: timers, index register, key wait, BCD, register dump/load. -/
def decodeF (c : CPU) (mem : Memory) (x nn : Nat) : Except Fault (CPU × Memory) :=
  let prev := c.iReg
  match nn with
  | 0x07 => .ok ({ c with v := write c.v x mem.delayTimer }, mem)
  | 0x15 => .ok (c, { mem with delayTimer := c.v x })
  | 0x18 => .ok (c, { mem with soundTimer := c.v x })
  | 0x1E =>
    let iReg := (c.iReg + c.v x) % 65536
    .ok ({ c with iReg := iReg, v := write c.v 0x0F (if iReg < prev then 1 else 0) }, mem)
  | 0x0A =>
    if c.lastKeyReleased = -1 then
      .ok ({ c with pc := (c.pc + 65536 - 2) % 65536 }, mem)
    else .ok ({ c with v := write c.v x (c.lastKeyReleased % 256).toNat }, mem)
  | 0x29 => .ok ({ c with iReg := (c.v x * 5) % 65536 }, mem)
  | 0x33 =>
    if c.iReg + 2 < ramSize then
      let ram := write mem.ram c.iReg ((c.v x / 100) % 10)
      let ram := write ram (c.iReg + 1) ((c.v x / 10) % 10)
      let ram := write ram (c.iReg + 2) (c.v x % 10)
      .ok (c, { mem with ram := ram })
    else .error .ramOutOfBounds
  | 0x55 => storeRegs (x + 1) 0 c mem
  | 0x65 =>
    match loadRegs mem (x + 1) 0 c with
    | .error e => .error e
    | .ok c => .ok (c, mem)
  | _ => .ok (c, mem)

/-- Method `CPU::decodeAndExecute`; `rnd` is the value `rand()` returns for `Cxnn`. -/
def decodeAndExecute (c : CPU) (mem : Memory) (opcode rnd : Nat) :
    Except Fault (CPU × Memory) :=
  let type := (opcode >>> 12) &&& 0x0F
  let x := (opcode >>> 8) &&& 0x0F
  let y := (opcode >>> 4) &&& 0x0F
  let n := opcode &&& 0x0F
  let nn := (y <<< 4) ||| n
  let nnn := (x <<< 8) ||| nn
  match type with
  | 0x00 => decode0 c mem nnn
  | 0x01 => .ok ({ c with pc := nnn }, mem)
  | 0x02 => .ok ({ c with pc := nnn }, { mem with stack := c.pc :: mem.stack })
  | 0x03 => .ok (if c.v x = nn then { c with pc := (c.pc + 2) % 65536 } else c, mem)
  | 0x04 => .ok (if c.v x ≠ nn then { c with pc := (c.pc + 2) % 65536 } else c, mem)
  | 0x05 => .ok (if c.v x = c.v y then { c with pc := (c.pc + 2) % 65536 } else c, mem)
  | 0x06 => .ok ({ c with v := write c.v x nn }, mem)
  | 0x07 => .ok ({ c with v := write c.v x ((c.v x + nn) % 256) }, mem)
  | 0x08 => .ok (decode8 c x y n, mem)
  | 0x09 => .ok (if c.v x ≠ c.v y then { c with pc := (c.pc + 2) % 65536 } else c, mem)
  | 0x0A => .ok ({ c with iReg := nnn }, mem)
  | 0x0B => .ok ({ c with pc := (c.v 0 + nnn) % 65536 }, mem)
  | 0x0C => .ok ({ c with v := write c.v x ((rnd % 256) &&& nn) }, mem)
  | 0x0D => drawGraphics c mem x y n
  | 0x0E =>
    match decodeE c x nn with
    | .error e => .error e
    | .ok c => .ok (c, mem)
  | 0x0F => decodeF c mem x nn
  | _ => .ok (c, mem)

/-- One iteration of the instruction loop of `main`: `fetch`, then `decodeAndExecute`. -/
def step (c : CPU) (mem : Memory) (rnd : Nat) : Except Fault (CPU × Memory) :=
  match fetch c mem with
  | .error e => .error e
  | .ok (opcode, c) => decodeAndExecute c mem opcode rnd

/-- Font loop of `Memory::Memory`, `for (uint8_t i = 0; i < fontData.size(); ++i)`:
`ram[i] = fontData[i]`.  The first argument is `fontData.size() - i`, the number of font
bytes still to copy. -/
def installFont : Nat → Nat → (Nat → Nat) → (Nat → Nat)
  | 0, _, ram => ram
  | k + 1, i, ram => installFont k (i + 1) (write ram i (fontData.getD i 0))

/-- Copy loop of `Memory::loadRom`, `for (uint16_t i = 0; i < romSize; ++i)`:
`ram[programEntry + i] = buffer[i]`.  The first argument is `romSize - i`, the number of
bytes still to copy; `buffer` holds the bytes read from the file, as unsigned values. -/
def loadRomLoop (buffer : List Nat) : Nat → Nat → (Nat → Nat) → Except Fault (Nat → Nat)
  | 0, _, ram => .ok ram
  | k + 1, i, ram =>
    if programEntry + i < ramSize then
      loadRomLoop buffer k ((i + 1) % 65536) (write ram (programEntry + i) (buffer.getD i 0))
    else .error .ramOutOfBounds

/-- Method `Memory::loadRom`, given the content of the file as `buffer`. -/
def loadRom (mem : Memory) (buffer : List Nat) : Except Fault Memory :=
  match loadRomLoop buffer buffer.length 0 mem.ram with
  | .error e => .error e
  | .ok ram => .ok { mem with ram := ram }

/-- Function `decrementTimers` of `main.cpp`. -/
def decrementTimers (mem : Memory) : Memory :=
  let mem := if mem.delayTimer > 0 then { mem with delayTimer := mem.delayTimer - 1 } else mem
  if mem.soundTimer > 0 then { mem with soundTimer := mem.soundTimer - 1 } else mem

/-- The instruction word with nibbles `t x y n`, written `txyn` in the opcode table. -/
def encode (t x y n : Nat) : Nat := t * 4096 + x * 256 + y * 16 + n


/-! ## Concrete inputs used by the closed theorems -/

/-- Registers after construction with `v[0] = 5` and `v[1] = 3`. -/
def subRegs : CPU := { CPU.new with v := write (write CPU.new.v 0 5) 1 3 }

/-- Registers after construction with `v[0] = 0x81` (bits 0 and 7 set). -/
def shiftRegs : CPU := { CPU.new with v := write CPU.new.v 0 0x81 }

/-- Registers after construction with `v[0] = 16`, one past the last key. -/
def keyRegs : CPU := { CPU.new with v := write CPU.new.v 0 16 }

/-- Memory after construction with the jump `1201` loaded at the program entry. -/
def oddJumpMem : Memory :=
  { Memory.new with ram := write (write Memory.new.ram 0x200 0x12) 0x201 0x01 }

/-- Memory after construction with the jump `1FFE` loaded at the program entry. -/
def edgeJumpMem : Memory :=
  { Memory.new with ram := write (write Memory.new.ram 0x200 0x1F) 0x201 0xFE }

/-- Memory after construction with the call `2345` loaded at the program entry. -/
def callMem : Memory :=
  { Memory.new with ram := write (write Memory.new.ram 0x200 0x23) 0x201 0x45 }

/-- Memory after construction with the key wait `F30A` loaded at the program entry. -/
def keyWaitMem : Memory :=
  { Memory.new with ram := write (write Memory.new.ram 0x200 0xF3) 0x201 0x0A }

/-- The CPU after construction once the host reported the release of key 7. -/
def keyedCpu : CPU := { CPU.new with lastKeyReleased := 7 }

/-- Registers after construction with `v[2] = 213` and `iReg = 0x300`. -/
def bcdRegs : CPU := { CPU.new with v := write CPU.new.v 2 213, iReg := 0x300 }

/-- The program `6005 7003 8014 00EE`. -/
def romBytes : List Nat := [0x60, 0x05, 0x70, 0x03, 0x80, 0x14, 0x00, 0xEE]

/-- Registers after construction with `v[0] = 0x0C` and `v[1] = 0x0A`. -/
def logicRegs : CPU := { CPU.new with v := write (write CPU.new.v 0 0x0C) 1 0x0A }

/-- Registers after construction with `v[0xF] = 5`. -/
def flagSpriteRegs : CPU := { CPU.new with v := write CPU.new.v 0x0F 5 }

/-- Registers after construction with `v[0] = 62` and `v[1] = 30`, two cells from the
right and from the bottom edge. -/
def edgeRegs : CPU := { CPU.new with v := write (write CPU.new.v 0 62) 1 30 }

/-- Memory after construction with the top left pixel lit. -/
def litMem : Memory := { Memory.new with display := write Memory.new.display 0 1 }

/-- Memory after construction with the call `2204` loaded at the program entry and the
return `00EE` at `0x204`. -/
def alignedMem : Memory :=
  { Memory.new with
    ram := write (write (write (write Memory.new.ram 0x200 0x22) 0x201 0x04) 0x204 0x00)
      0x205 0xEE }

/-- The program `6010 E09E`: load 16 into `v[0]`, then skip if key `v[0]` is held. -/
def keyRomBytes : List Nat := [0x60, 0x10, 0xE0, 0x9E]

/-! ## Predicates used to state the properties -/

/-- Opcodes `txyn` that match no row of the opcode table inside a family with a nested
dispatch (`0`, `8`, `E`, `F`). -/
def unmatchedNested (t x y n : Nat) : Prop :=
  (t = 0x0 ∧ x * 256 + (y * 16 + n) ≠ 0x0E0 ∧ x * 256 + (y * 16 + n) ≠ 0x0EE) ∨
  (t = 0x8 ∧ n ≠ 0 ∧ n ≠ 1 ∧ n ≠ 2 ∧ n ≠ 3 ∧ n ≠ 4 ∧ n ≠ 5 ∧ n ≠ 6 ∧ n ≠ 7 ∧ n ≠ 0xE) ∨
  (t = 0xE ∧ y * 16 + n ≠ 0x9E ∧ y * 16 + n ≠ 0xA1) ∨
  (t = 0xF ∧ y * 16 + n ≠ 0x07 ∧ y * 16 + n ≠ 0x0A ∧ y * 16 + n ≠ 0x15 ∧
    y * 16 + n ≠ 0x18 ∧ y * 16 + n ≠ 0x1E ∧ y * 16 + n ≠ 0x29 ∧ y * 16 + n ≠ 0x33 ∧
    y * 16 + n ≠ 0x55 ∧ y * 16 + n ≠ 0x65)

/-- States reachable from the freshly constructed CPU over a memory with arbitrary RAM
contents (and the constructor's empty stack) by calls of `fetch` and
`decodeAndExecute`. -/
inductive Reachable : CPU → Memory → Prop where
  | init (mem : Memory) (h : mem.stack = []) : Reachable CPU.new mem
  | fetch {c c' : CPU} {mem : Memory} {opcode : Nat} :
      Reachable c mem → fetch c mem = .ok (opcode, c') → Reachable c' mem
  | exec {c c' : CPU} {mem mem' : Memory} {opcode rnd : Nat} :
      Reachable c mem → decodeAndExecute c mem opcode rnd = .ok (c', mem') →
      Reachable c' mem'

/-- What holds of every reachable state: `pc` and every return address on the stack are
16-bit values. -/
def Inv (c : CPU) (mem : Memory) : Prop :=
  c.pc < 65536 ∧ ∀ a ∈ mem.stack, a < 65536

/-- The address an opcode jumps to is even: `nnn`, the low 12 bits of the opcode, for `1nnn`
and `2nnn`; `v[0] + nnn` for `Bnnn`.  Opcodes of the other families satisfy it. -/
def evenTarget (c : CPU) (opcode : Nat) : Prop :=
  ((opcode >>> 12) &&& 0x0F = 1 ∨ (opcode >>> 12) &&& 0x0F = 2 → opcode % 4096 % 2 = 0) ∧
  ((opcode >>> 12) &&& 0x0F = 0xB → (c.v 0 + opcode % 4096) % 2 = 0)

/-- States reachable from the freshly constructed CPU over a memory with arbitrary RAM
contents (and the constructor's empty stack) by calls of `fetch` and `decodeAndExecute`
in which every executed jump, call and indexed jump has an even target. -/
inductive ReachableEven : CPU → Memory → Prop where
  | init (mem : Memory) (h : mem.stack = []) : ReachableEven CPU.new mem
  | fetch {c c' : CPU} {mem : Memory} {opcode : Nat} :
      ReachableEven c mem → fetch c mem = .ok (opcode, c') → ReachableEven c' mem
  | exec {c c' : CPU} {mem mem' : Memory} {opcode rnd : Nat} :
      ReachableEven c mem → evenTarget c opcode →
      decodeAndExecute c mem opcode rnd = .ok (c', mem') → ReachableEven c' mem'

/-- Parity invariant: `pc` and every return address on the stack are even. -/
def InvEven (c : CPU) (mem : Memory) : Prop :=
  c.pc % 2 = 0 ∧ ∀ a ∈ mem.stack, a % 2 = 0

/-- Cells `q` (row `q / 64`, column `q % 64`) of row `y` from column `xc` on, `j` columns
wide; columns end at 63 because `q % 64` does. -/
@[reducible]
def inRow (y xc j q : Nat) : Prop := q / 64 = y ∧ xc ≤ q % 64 ∧ q % 64 < xc + j

/-- Cells `q` (row `q / 64`, column `q % 64`) of the `8 × n` sprite rectangle with top left
corner `(x0, y0)`, clipped to the 64 × 32 display. -/
@[reducible]
def inSprite (x0 y0 n q : Nat) : Prop :=
  y0 ≤ q / 64 ∧ q / 64 < min (y0 + n) 32 ∧ x0 ≤ q % 64 ∧ q % 64 < min (x0 + 8) 64

/-- The sprite bit that belongs to cell `q` when the sprite stored at `iReg` has its top left
corner at `(x0, y0)`: row `q / 64 - y0` of the sprite, most significant bit first. -/
def spriteBit (ram : Nat → Nat) (iReg x0 y0 q : Nat) : Nat :=
  (ram (iReg + (q / 64 - y0)) >>> (7 - (q % 64 - x0))) &&& 1

/-- Cell-wise exclusive or of two displays. -/
def xorMap (d e : Nat → Nat) : Nat → Nat := fun k => d k ^^^ e k

/-! ## Basic lemmas -/

@[simp] theorem write_same {α : Type} (f : Nat → α) (i : Nat) (a : α) :
    write f i a i = a := by
  simp [write]

theorem write_other {α : Type} (f : Nat → α) (i k : Nat) (a : α) (h : k ≠ i) :
    write f i a k = f k := by
  simp [write, h]

theorem and15 (a : Nat) : a &&& 0x0F = a % 16 := Nat.and_pow_two_sub_one_eq_mod a 4

theorem shl_or (a b k : Nat) (h : b < 2 ^ k) : (a <<< k) ||| b = a * 2 ^ k + b := by
  rw [Nat.shiftLeft_eq, Nat.mul_comm, ← Nat.mul_add_lt_is_or h]

/-! ## Operand fields of an instruction word -/

theorem encode_type (t x y n : Nat) (ht : t < 16) (hx : x < 16) (hy : y < 16)
    (hn : n < 16) : (encode t x y n >>> 12) &&& 0x0F = t := by
  rw [and15, Nat.shiftRight_eq_div_pow]; unfold encode; omega

theorem encode_x (t x y n : Nat) (hx : x < 16) (hy : y < 16) (hn : n < 16) :
    (encode t x y n >>> 8) &&& 0x0F = x := by
  rw [and15, Nat.shiftRight_eq_div_pow]; unfold encode; omega

theorem encode_y (t x y n : Nat) (hy : y < 16) (hn : n < 16) :
    (encode t x y n >>> 4) &&& 0x0F = y := by
  rw [and15, Nat.shiftRight_eq_div_pow]; unfold encode; omega

theorem encode_n (t x y n : Nat) (hn : n < 16) : encode t x y n &&& 0x0F = n := by
  rw [and15]; unfold encode; omega

theorem nn_eq (y n : Nat) (hn : n < 16) : (y <<< 4) ||| n = y * 16 + n :=
  shl_or y n 4 hn

theorem nnn_eq (x y n : Nat) (hy : y < 16) (hn : n < 16) :
    (x <<< 8) ||| (y * 16 + n) = x * 256 + (y * 16 + n) :=
  shl_or x _ 8 (by show _ < 256; omega)

theorem decodeAndExecute_0 (c : CPU) (mem : Memory) (x y n rnd : Nat) (hx : x < 16)
    (hy : y < 16) (hn : n < 16) :
    decodeAndExecute c mem (encode 0 x y n) rnd = decode0 c mem (x * 256 + (y * 16 + n)) := by
  simp only [decodeAndExecute, encode_type 0 x y n (by omega) hx hy hn,
    encode_x 0 x y n hx hy hn, encode_y 0 x y n hy hn, encode_n 0 x y n hn, nn_eq y n hn,
    nnn_eq x y n hy hn]

theorem decodeAndExecute_2 (c : CPU) (mem : Memory) (x y n rnd : Nat) (hx : x < 16)
    (hy : y < 16) (hn : n < 16) :
    decodeAndExecute c mem (encode 2 x y n) rnd =
      .ok ({ c with pc := x * 256 + (y * 16 + n) }, { mem with stack := c.pc :: mem.stack }) := by
  simp only [decodeAndExecute, encode_type 2 x y n (by omega) hx hy hn,
    encode_x 2 x y n hx hy hn, encode_y 2 x y n hy hn, encode_n 2 x y n hn, nn_eq y n hn,
    nnn_eq x y n hy hn]

theorem decodeAndExecute_8 (c : CPU) (mem : Memory) (x y n rnd : Nat) (hx : x < 16)
    (hy : y < 16) (hn : n < 16) :
    decodeAndExecute c mem (encode 8 x y n) rnd = .ok (decode8 c x y n, mem) := by
  simp only [decodeAndExecute, encode_type 8 x y n (by omega) hx hy hn,
    encode_x 8 x y n hx hy hn, encode_y 8 x y n hy hn, encode_n 8 x y n hn]

theorem decodeAndExecute_D (c : CPU) (mem : Memory) (x y n rnd : Nat) (hx : x < 16)
    (hy : y < 16) (hn : n < 16) :
    decodeAndExecute c mem (encode 0xD x y n) rnd = drawGraphics c mem x y n := by
  simp only [decodeAndExecute, encode_type 0xD x y n (by omega) hx hy hn,
    encode_x 0xD x y n hx hy hn, encode_y 0xD x y n hy hn, encode_n 0xD x y n hn]

theorem decodeAndExecute_E (c : CPU) (mem : Memory) (x y n rnd : Nat) (hx : x < 16)
    (hy : y < 16) (hn : n < 16) :
    decodeAndExecute c mem (encode 0xE x y n) rnd =
      (match decodeE c x (y * 16 + n) with
       | .error e => .error e
       | .ok c => .ok (c, mem)) := by
  simp only [decodeAndExecute, encode_type 0xE x y n (by omega) hx hy hn,
    encode_x 0xE x y n hx hy hn, encode_y 0xE x y n hy hn, encode_n 0xE x y n hn,
    nn_eq y n hn]

theorem decodeAndExecute_F (c : CPU) (mem : Memory) (x y n rnd : Nat) (hx : x < 16)
    (hy : y < 16) (hn : n < 16) :
    decodeAndExecute c mem (encode 0xF x y n) rnd = decodeF c mem x (y * 16 + n) := by
  simp only [decodeAndExecute, encode_type 0xF x y n (by omega) hx hy hn,
    encode_x 0xF x y n hx hy hn, encode_y 0xF x y n hy hn, encode_n 0xF x y n hn,
    nn_eq y n hn]

/-! ## Flags of the arithmetic opcodes `8xy4` and `8xy5` -/

theorem decode8_sub_flag (c : CPU) (x y : Nat) :
    (decode8 c x y 5).v 0x0F = if sub8 (c.v x) (c.v y) < c.v x then 1 else 0 := by
  simp [decode8]

theorem decode8_add_flag (c : CPU) (x y : Nat) :
    (decode8 c x y 4).v 0x0F = if (c.v x + c.v y) % 256 < c.v x then 1 else 0 := by
  simp [decode8]

theorem decode8_add_value (c : CPU) (x y : Nat) (h : x ≠ 0x0F) :
    (decode8 c x y 4).v x = (c.v x + c.v y) % 256 := by
  simp [decode8, write_other _ _ _ _ h]

/-- C1, as stated, fails: with `v[0] = 5` and `v[1] = 3` the opcode `8015` leaves
`v[0xF] = 1` although no borrow occurred (`5 < 3` is false). -/
theorem sub_flag_counterexample :
    ∃ c, decodeAndExecute subRegs Memory.new 0x8015 0 = .ok (c, Memory.new) ∧
      c.v 0x0F = 1 ∧ ¬ (subRegs.v 0 < subRegs.v 1) :=
  ⟨_, rfl, by decide, by decide⟩

/-- C1, amended: for all register indices `x`, `y` and byte values `a = v[x]`,
`b = v[y]`, `8xy5` returns and leaves `v[0xF] = 1` exactly when the wrapped difference
`(a - b) mod 256` is below `a`, which is exactly when `b ≠ 0` and `b ≤ a`; otherwise (in
particular whenever `a < b`) it leaves `v[0xF] = 0`. -/
theorem sub_flag (c : CPU) (mem : Memory) (x y rnd : Nat) (hx : x < 16) (hy : y < 16)
    (ha : c.v x < 256) (hb : c.v y < 256) :
    ∃ c', decodeAndExecute c mem (encode 8 x y 5) rnd = .ok (c', mem) ∧
      c'.v 0x0F = (if (c.v x + 256 - c.v y) % 256 < c.v x then 1 else 0) ∧
      (c'.v 0x0F = 1 ↔ c.v y ≠ 0 ∧ c.v y ≤ c.v x) ∧
      (c'.v 0x0F = 0 ↔ ¬ (c.v y ≠ 0 ∧ c.v y ≤ c.v x)) := by
  rw [decodeAndExecute_8 c mem x y 5 rnd hx hy (by omega)]
  refine ⟨_, rfl, ?_, ?_, ?_⟩ <;> rw [decode8_sub_flag] <;> unfold sub8
  · congr 1
    apply propext
    constructor <;> intro h <;> omega
  · split <;> omega
  · split <;> omega

/-- C1 witness: the amended flag rule at `x = 0`, `y = 1`, `v[0] = 5`, `v[1] = 3`. -/
theorem sub_flag_witness :
    ∃ c', decodeAndExecute subRegs Memory.new (encode 8 0 1 5) 0 = .ok (c', Memory.new) ∧
      c'.v 0x0F = (if (subRegs.v 0 + 256 - subRegs.v 1) % 256 < subRegs.v 0 then 1 else 0) ∧
      (c'.v 0x0F = 1 ↔ subRegs.v 1 ≠ 0 ∧ subRegs.v 1 ≤ subRegs.v 0) ∧
      (c'.v 0x0F = 0 ↔ ¬ (subRegs.v 1 ≠ 0 ∧ subRegs.v 1 ≤ subRegs.v 0)) :=
  sub_flag subRegs Memory.new 0 1 0 (by decide) (by decide) (by decide) (by decide)

/-- C5: for all register indices `x`, `y` (equal or not, `0xF` or not) and byte values
`a = v[x]`, `b = v[y]`, `8xy4` returns and leaves `v[0xF] = 1` iff `a + b > 255`, else
`0`, and for `x ≠ 0xF` leaves `v[x] = (a + b) mod 256`. -/
theorem add_flag (c : CPU) (mem : Memory) (x y rnd : Nat) (hx : x < 16) (hy : y < 16)
    (ha : c.v x < 256) (hb : c.v y < 256) :
    ∃ c', decodeAndExecute c mem (encode 8 x y 4) rnd = .ok (c', mem) ∧
      (c'.v 0x0F = 1 ↔ c.v x + c.v y > 255) ∧
      (c'.v 0x0F = 0 ↔ ¬ (c.v x + c.v y > 255)) ∧
      (x ≠ 0x0F → c'.v x = (c.v x + c.v y) % 256) := by
  rw [decodeAndExecute_8 c mem x y 4 rnd hx hy (by omega)]
  refine ⟨_, rfl, ?_, ?_, ?_⟩
  · rw [decode8_add_flag]; split <;> omega
  · rw [decode8_add_flag]; split <;> omega
  · exact decode8_add_value c x y

/-- C5 witness: the carry rule at `x = 0`, `y = 1`, `v[0] = 5`, `v[1] = 3`. -/
theorem add_flag_witness :
    ∃ c', decodeAndExecute subRegs Memory.new (encode 8 0 1 4) 0 = .ok (c', Memory.new) ∧
      (c'.v 0x0F = 1 ↔ subRegs.v 0 + subRegs.v 1 > 255) ∧
      (c'.v 0x0F = 0 ↔ ¬ (subRegs.v 0 + subRegs.v 1 > 255)) ∧
      c'.v 0 = (subRegs.v 0 + subRegs.v 1) % 256 :=
  match add_flag subRegs Memory.new 0 1 0 (by decide) (by decide) (by decide) (by decide) with
  | ⟨c', h1, h2, h3, h4⟩ => ⟨c', h1, h2, h3, h4 (by decide)⟩

/-! ## Shift opcodes `8xy6` and `8xyE` -/

/-- C2 at the failing input `x = y = 0`, `v[0] = 0x81`: `8006` leaves `v[0xF] = 0` although
bit 0 of the old `v[0]` is `1`, and `800E` leaves `v[0xF] = 0` although bit 7 of the old
`v[0]` is `1`; the flag is read from `v[y]` after `v[x]` was overwritten. -/
theorem shift_flag_aliased :
    (∃ c, decodeAndExecute shiftRegs Memory.new 0x8006 0 = .ok (c, Memory.new) ∧
      c.v 0x0F = 0 ∧ shiftRegs.v 0 &&& 1 = 1 ∧ c.v 0 = 0x40) ∧
    (∃ c, decodeAndExecute shiftRegs Memory.new 0x800E 0 = .ok (c, Memory.new) ∧
      c.v 0x0F = 0 ∧ (shiftRegs.v 0 &&& 128) >>> 7 = 1 ∧ c.v 0 = 0x02) :=
  ⟨⟨_, rfl, by decide, by decide, by decide⟩, ⟨_, rfl, by decide, by decide, by decide⟩⟩

/-- For distinct registers `x ≠ y` the shift opcodes do take operand and flag from the
old `v[y]`. -/
theorem shift_flag_distinct (c : CPU) (mem : Memory) (x y rnd : Nat) (hx : x < 16)
    (hy : y < 16) (hxy : x ≠ y) :
    (∃ c', decodeAndExecute c mem (encode 8 x y 6) rnd = .ok (c', mem) ∧
      c'.v 0x0F = c.v y &&& 1 ∧ (x ≠ 0x0F → c'.v x = c.v y >>> 1)) ∧
    (∃ c', decodeAndExecute c mem (encode 8 x y 0xE) rnd = .ok (c', mem) ∧
      c'.v 0x0F = (c.v y &&& 128) >>> 7 ∧ (x ≠ 0x0F → c'.v x = (c.v y <<< 1) % 256)) := by
  rw [decodeAndExecute_8 c mem x y 6 rnd hx hy (by omega),
    decodeAndExecute_8 c mem x y 0xE rnd hx hy (by omega)]
  have hyx : y ≠ x := fun h => hxy h.symm
  refine ⟨⟨_, rfl, ?_, ?_⟩, ⟨_, rfl, ?_, ?_⟩⟩
  · simp [decode8, write_other _ _ _ _ hyx]
  · intro h; simp [decode8, write_other _ _ _ _ h]
  · simp [decode8, write_other _ _ _ _ hyx]
  · intro h; simp [decode8, write_other _ _ _ _ h]

/-! ## Opcodes outside the opcode table -/

theorem decode0_unmatched (c : CPU) (mem : Memory) (nnn : Nat) (h1 : nnn ≠ 0x0E0)
    (h2 : nnn ≠ 0x0EE) : decode0 c mem nnn = .ok (c, mem) := by
  unfold decode0
  split
  · exact absurd rfl h1
  · exact absurd rfl h2
  · rfl

theorem decode8_unmatched (c : CPU) (x y n : Nat) (h0 : n ≠ 0) (h1 : n ≠ 1) (h2 : n ≠ 2)
    (h3 : n ≠ 3) (h4 : n ≠ 4) (h5 : n ≠ 5) (h6 : n ≠ 6) (h7 : n ≠ 7) (hE : n ≠ 0xE) :
    decode8 c x y n = c := by
  unfold decode8
  split <;> first | rfl | (exfalso; omega)

theorem decodeE_unmatched (c : CPU) (x nn : Nat) (hk : c.v x < 16) (h1 : nn ≠ 0x9E)
    (h2 : nn ≠ 0xA1) : decodeE c x nn = .ok c := by
  unfold decodeE
  rw [if_pos (show c.v x < keyCount from hk)]
  split
  · exact absurd rfl h1
  · exact absurd rfl h2
  · rfl

theorem decodeF_unmatched (c : CPU) (mem : Memory) (x nn : Nat) (h1 : nn ≠ 0x07)
    (h2 : nn ≠ 0x0A) (h3 : nn ≠ 0x15) (h4 : nn ≠ 0x18) (h5 : nn ≠ 0x1E) (h6 : nn ≠ 0x29)
    (h7 : nn ≠ 0x33) (h8 : nn ≠ 0x55) (h9 : nn ≠ 0x65) : decodeF c mem x nn = .ok (c, mem) := by
  unfold decodeF
  split <;> first | rfl | (exfalso; omega)

/-- C3, as stated, fails: `5001` on the freshly constructed machine compares `v[0]` with
itself and moves `pc` from `0x200` to `0x202` (the low nibble of `5xyN` is never looked
at); and `E000` with `v[0] = 16` reads `keyState[16]`, outside the keypad, before it
dispatches. -/
theorem unknown_opcode_counterexample :
    (∃ c, decodeAndExecute CPU.new Memory.new 0x5001 0 = .ok (c, Memory.new) ∧
      c.pc = 0x202 ∧ CPU.new.pc = 0x200) ∧
    decodeAndExecute keyRegs Memory.new 0xE000 0 = .error .keyOutOfBounds :=
  ⟨⟨_, rfl, by decide, by decide⟩, rfl⟩

/-- C3, amended: an opcode that matches no row of the table inside a family with a nested
dispatch (`0nnn` other than `00E0`/`00EE`, `8xyN` with `N` not in `0..7, E`, `ExNN` other
than `Ex9E`/`ExA1`, `FxNN` other than the nine listed) leaves the whole state unchanged;
for the `E` family this needs the key lookup `keyState[v[x]]` in range, `v[x] < 16`. -/
theorem unknown_opcode_ignored (c : CPU) (mem : Memory) (t x y n rnd : Nat) (hx : x < 16)
    (hy : y < 16) (hn : n < 16) (hu : unmatchedNested t x y n)
    (hk : t = 0xE → c.v x < 16) :
    decodeAndExecute c mem (encode t x y n) rnd = .ok (c, mem) := by
  rcases hu with ⟨rfl, h1, h2⟩ | ⟨rfl, h⟩ | ⟨rfl, h1, h2⟩ | ⟨rfl, h⟩
  · rw [decodeAndExecute_0 c mem x y n rnd hx hy hn]
    exact decode0_unmatched c mem _ h1 h2
  · rw [decodeAndExecute_8 c mem x y n rnd hx hy hn,
      decode8_unmatched c x y n h.1 h.2.1 h.2.2.1 h.2.2.2.1 h.2.2.2.2.1 h.2.2.2.2.2.1
        h.2.2.2.2.2.2.1 h.2.2.2.2.2.2.2.1 h.2.2.2.2.2.2.2.2]
  · rw [decodeAndExecute_E c mem x y n rnd hx hy hn,
      decodeE_unmatched c x _ (hk rfl) h1 h2]
  · rw [decodeAndExecute_F c mem x y n rnd hx hy hn]
    exact decodeF_unmatched c mem x _ h.1 h.2.1 h.2.2.1 h.2.2.2.1 h.2.2.2.2.1 h.2.2.2.2.2.1
      h.2.2.2.2.2.2.1 h.2.2.2.2.2.2.2.1 h.2.2.2.2.2.2.2.2

/-- C3 witness: the opcode `8008` on the freshly constructed machine. -/
theorem unknown_opcode_ignored_witness :
    unmatchedNested 8 0 0 8 ∧
      decodeAndExecute CPU.new Memory.new (encode 8 0 0 8) 0 = .ok (CPU.new, Memory.new) :=
  ⟨by unfold unmatchedNested; decide,
    unknown_opcode_ignored CPU.new Memory.new 8 0 0 8 0 (by decide) (by decide) (by decide)
      (by unfold unmatchedNested; decide) (by decide)⟩

/-- The low nibble of `5xyN` and `9xyN` is not decoded: they execute as `5xy0`, `9xy0`. -/
theorem skip_low_nibble_ignored (c : CPU) (mem : Memory) (x y n rnd : Nat) (hx : x < 16)
    (hy : y < 16) (hn : n < 16) :
    decodeAndExecute c mem (encode 5 x y n) rnd = decodeAndExecute c mem (encode 5 x y 0) rnd ∧
    decodeAndExecute c mem (encode 9 x y n) rnd = decodeAndExecute c mem (encode 9 x y 0) rnd := by
  constructor
  · simp only [decodeAndExecute, encode_type 5 x y n (by omega) hx hy hn,
      encode_type 5 x y 0 (by omega) hx hy (by omega), encode_x 5 x y n hx hy hn,
      encode_x 5 x y 0 hx hy (by omega), encode_y 5 x y n hy hn,
      encode_y 5 x y 0 hy (by omega)]
  · simp only [decodeAndExecute, encode_type 9 x y n (by omega) hx hy hn,
      encode_type 9 x y 0 (by omega) hx hy (by omega), encode_x 9 x y n hx hy hn,
      encode_x 9 x y 0 hx hy (by omega), encode_y 9 x y n hy hn,
      encode_y 9 x y 0 hy (by omega)]

/-! ## The program counter -/

theorem nnn_lt (op : Nat) :
    ((op >>> 8 &&& 0x0F) <<< 8) ||| (((op >>> 4 &&& 0x0F) <<< 4) ||| (op &&& 0x0F)) < 4096 := by
  have h1 : op &&& 0x0F < 16 := by rw [and15]; omega
  have h2 : op >>> 4 &&& 0x0F < 16 := by rw [and15]; omega
  have h3 : op >>> 8 &&& 0x0F < 16 := by rw [and15]; omega
  rw [nn_eq _ _ h1, nnn_eq _ _ _ h2 h1]
  omega

theorem fetch_inv {c c' : CPU} {mem : Memory} {op : Nat}
    (h : fetch c mem = .ok (op, c')) (hi : Inv c mem) : Inv c' mem := by
  unfold fetch at h
  split at h
  · simp only [Except.ok.injEq, Prod.mk.injEq] at h
    obtain ⟨-, rfl⟩ := h
    exact ⟨Nat.mod_lt _ (by decide), hi.2⟩
  · cases h

theorem decode0_inv {c c' : CPU} {mem mem' : Memory} {nnn : Nat}
    (h : decode0 c mem nnn = .ok (c', mem')) (hi : Inv c mem) : Inv c' mem' := by
  unfold decode0 at h
  split at h
  · simp only [Except.ok.injEq, Prod.mk.injEq] at h
    obtain ⟨rfl, rfl⟩ := h
    exact hi
  · split at h
    · cases h
    · rename_i top rest hs
      simp only [Except.ok.injEq, Prod.mk.injEq] at h
      obtain ⟨rfl, rfl⟩ := h
      have hst := hi.2
      rw [hs] at hst
      exact ⟨hst top (List.mem_cons_self _ _), fun a ha => hst a (List.mem_cons_of_mem _ ha)⟩
  · simp only [Except.ok.injEq, Prod.mk.injEq] at h
    obtain ⟨rfl, rfl⟩ := h
    exact hi

theorem decode8_pc (c : CPU) (x y n : Nat) : (decode8 c x y n).pc = c.pc := by
  unfold decode8
  split <;> rfl

theorem drawGraphics_pc_stack {c c' : CPU} {mem mem' : Memory} {x y n : Nat}
    (h : drawGraphics c mem x y n = .ok (c', mem')) :
    c'.pc = c.pc ∧ mem'.stack = mem.stack := by
  unfold drawGraphics at h
  simp only at h
  split at h
  · cases h
  · simp only [Except.ok.injEq, Prod.mk.injEq] at h
    obtain ⟨rfl, rfl⟩ := h
    exact ⟨rfl, rfl⟩

theorem decodeE_inv {c c' : CPU} {x nn : Nat} (h : decodeE c x nn = .ok c')
    (hp : c.pc < 65536) : c'.pc < 65536 := by
  unfold decodeE at h
  split at h
  · split at h <;> simp only [Except.ok.injEq] at h <;> subst h
    · split
      · exact Nat.mod_lt _ (by decide)
      · exact hp
    · split
      · exact Nat.mod_lt _ (by decide)
      · exact hp
    · exact hp
  · cases h

theorem storeRegs_pc_stack (k : Nat) : ∀ (i : Nat) (c c' : CPU) (mem mem' : Memory),
    storeRegs k i c mem = .ok (c', mem') → c'.pc = c.pc ∧ mem'.stack = mem.stack := by
  induction k with
  | zero =>
    intro i c c' mem mem' h
    simp only [storeRegs, Except.ok.injEq, Prod.mk.injEq] at h
    obtain ⟨rfl, rfl⟩ := h
    exact ⟨rfl, rfl⟩
  | succ k ih =>
    intro i c c' mem mem' h
    unfold storeRegs at h
    split at h
    · have h' := ih _ _ _ _ _ h
      exact h'
    · cases h

theorem loadRegs_pc (mem : Memory) (k : Nat) : ∀ (i : Nat) (c c' : CPU),
    loadRegs mem k i c = .ok c' → c'.pc = c.pc := by
  induction k with
  | zero =>
    intro i c c' h
    simp only [loadRegs, Except.ok.injEq] at h
    subst h
    rfl
  | succ k ih =>
    intro i c c' h
    unfold loadRegs at h
    split at h
    · have h' := ih _ _ _ h
      exact h'
    · cases h

theorem decodeF_inv {c c' : CPU} {mem mem' : Memory} {x nn : Nat}
    (h : decodeF c mem x nn = .ok (c', mem')) (hi : Inv c mem) : Inv c' mem' := by
  unfold decodeF at h
  simp only at h
  split at h
  case h_5 =>
    split at h <;> simp only [Except.ok.injEq, Prod.mk.injEq] at h <;> obtain ⟨rfl, rfl⟩ := h
    · exact ⟨Nat.mod_lt _ (by decide), hi.2⟩
    · exact hi
  case h_7 =>
    split at h
    · simp only [Except.ok.injEq, Prod.mk.injEq] at h
      obtain ⟨rfl, rfl⟩ := h
      exact hi
    · cases h
  case h_8 =>
    obtain ⟨h1, h2⟩ := storeRegs_pc_stack _ _ _ _ _ _ h
    exact ⟨h1 ▸ hi.1, h2 ▸ hi.2⟩
  case h_9 =>
    split at h
    · cases h
    · rename_i c2 hl
      simp only [Except.ok.injEq, Prod.mk.injEq] at h
      obtain ⟨rfl, rfl⟩ := h
      exact ⟨loadRegs_pc _ _ _ _ _ hl ▸ hi.1, hi.2⟩
  all_goals
    simp only [Except.ok.injEq, Prod.mk.injEq] at h
    obtain ⟨rfl, rfl⟩ := h
    exact hi

theorem decodeAndExecute_inv {c c' : CPU} {mem mem' : Memory} {op rnd : Nat}
    (h : decodeAndExecute c mem op rnd = .ok (c', mem')) (hi : Inv c mem) : Inv c' mem' := by
  have hnnn := nnn_lt op
  unfold decodeAndExecute at h
  simp only at h
  split at h
  case h_1 => exact decode0_inv h hi
  case h_2 =>
    simp only [Except.ok.injEq, Prod.mk.injEq] at h
    obtain ⟨rfl, rfl⟩ := h
    exact ⟨Nat.lt_trans hnnn (by decide), hi.2⟩
  case h_3 =>
    simp only [Except.ok.injEq, Prod.mk.injEq] at h
    obtain ⟨rfl, rfl⟩ := h
    refine ⟨Nat.lt_trans hnnn (by decide), fun a ha => ?_⟩
    rcases List.mem_cons.mp ha with rfl | ha
    · exact hi.1
    · exact hi.2 a ha
  case h_9 =>
    simp only [Except.ok.injEq, Prod.mk.injEq] at h
    obtain ⟨rfl, rfl⟩ := h
    exact ⟨(decode8_pc c _ _ _).symm ▸ hi.1, hi.2⟩
  case h_12 =>
    simp only [Except.ok.injEq, Prod.mk.injEq] at h
    obtain ⟨rfl, rfl⟩ := h
    exact ⟨Nat.mod_lt _ (by decide), hi.2⟩
  case h_14 =>
    obtain ⟨h1, h2⟩ := drawGraphics_pc_stack h
    exact ⟨h1 ▸ hi.1, h2 ▸ hi.2⟩
  case h_15 =>
    split at h
    · cases h
    · rename_i c2 he
      simp only [Except.ok.injEq, Prod.mk.injEq] at h
      obtain ⟨rfl, rfl⟩ := h
      exact ⟨decodeE_inv he hi.1, hi.2⟩
  case h_16 => exact decodeF_inv h hi
  all_goals
    simp only [Except.ok.injEq, Prod.mk.injEq] at h
    obtain ⟨rfl, rfl⟩ := h
    first
      | exact hi
      | (refine ⟨?_, hi.2⟩
         split
         · exact Nat.mod_lt _ (by decide)
         · exact hi.1)

/-- C4, as stated, fails: with the jump `1201` at the program entry, one fetch and one
decodeAndExecute take the freshly constructed CPU to `pc = 0x201`, which is odd; with the
jump `1FFE` there, fetch, decodeAndExecute and one more fetch take it to `pc = 4096`. -/
theorem pc_even_counterexample :
    (∃ c, Reachable c oddJumpMem ∧ c.pc = 0x201 ∧ ¬ (c.pc % 2 = 0 ∧ c.pc < 4096)) ∧
    (∃ c, Reachable c edgeJumpMem ∧ c.pc = 4096 ∧ ¬ (c.pc % 2 = 0 ∧ c.pc < 4096)) := by
  have h0 : Reachable CPU.new oddJumpMem := Reachable.init oddJumpMem rfl
  have h1 : Reachable { CPU.new with pc := 0x202 } oddJumpMem :=
    @Reachable.fetch CPU.new _ oddJumpMem 0x1201 h0 rfl
  have h2 : Reachable { CPU.new with pc := 0x201 } oddJumpMem :=
    @Reachable.exec _ _ oddJumpMem _ 0x1201 0 h1 rfl
  have k0 : Reachable CPU.new edgeJumpMem := Reachable.init edgeJumpMem rfl
  have k1 : Reachable { CPU.new with pc := 0x202 } edgeJumpMem :=
    @Reachable.fetch CPU.new _ edgeJumpMem 0x1FFE k0 rfl
  have k2 : Reachable { CPU.new with pc := 0xFFE } edgeJumpMem :=
    @Reachable.exec _ _ edgeJumpMem _ 0x1FFE 0 k1 rfl
  have k3 : Reachable { CPU.new with pc := 0x1000 } edgeJumpMem :=
    @Reachable.fetch _ _ edgeJumpMem 0 k2 rfl
  exact ⟨⟨_, h2, rfl, by decide⟩, ⟨_, k3, rfl, by decide⟩⟩

/-- In every state reachable by any sequence of fetch and decodeAndExecute calls `pc` is a
16-bit value. -/
theorem pc_lt_65536 (c : CPU) (mem : Memory) (h : Reachable c mem) : c.pc < 65536 := by
  have hi : Inv c mem := by
    induction h with
    | init mem hs => exact ⟨by decide, by rw [hs]; intro a ha; cases ha⟩
    | fetch _ hf ih => exact fetch_inv hf ih
    | exec _ he ih => exact decodeAndExecute_inv he ih
  exact hi.1

theorem reachable_of_even {c : CPU} {mem : Memory} (h : ReachableEven c mem) :
    Reachable c mem := by
  induction h with
  | init mem hs => exact Reachable.init mem hs
  | fetch _ hf ih => exact Reachable.fetch ih hf
  | exec _ _ he ih => exact Reachable.exec ih he

theorem nnn_eq_mod (op : Nat) :
    ((op >>> 8 &&& 0x0F) <<< 8) ||| (((op >>> 4 &&& 0x0F) <<< 4) ||| (op &&& 0x0F)) =
      op % 4096 := by
  have h1 : op &&& 0x0F < 16 := by rw [and15]; omega
  have h2 : op >>> 4 &&& 0x0F < 16 := by rw [and15]; omega
  rw [nn_eq _ _ h1, nnn_eq _ _ _ h2 h1, and15, and15, and15, Nat.shiftRight_eq_div_pow,
    Nat.shiftRight_eq_div_pow]
  omega

theorem fetch_even {c c' : CPU} {mem : Memory} {op : Nat}
    (h : fetch c mem = .ok (op, c')) (hi : InvEven c mem) : InvEven c' mem := by
  unfold fetch at h
  split at h
  · simp only [Except.ok.injEq, Prod.mk.injEq] at h
    obtain ⟨-, rfl⟩ := h
    have := hi.1
    exact ⟨by show (c.pc + 2) % 65536 % 2 = 0; omega, hi.2⟩
  · cases h

theorem decode0_even {c c' : CPU} {mem mem' : Memory} {nnn : Nat}
    (h : decode0 c mem nnn = .ok (c', mem')) (hi : InvEven c mem) : InvEven c' mem' := by
  unfold decode0 at h
  split at h
  · simp only [Except.ok.injEq, Prod.mk.injEq] at h
    obtain ⟨rfl, rfl⟩ := h
    exact hi
  · split at h
    · cases h
    · rename_i top rest hs
      simp only [Except.ok.injEq, Prod.mk.injEq] at h
      obtain ⟨rfl, rfl⟩ := h
      have hst := hi.2
      rw [hs] at hst
      exact ⟨hst top (List.mem_cons_self _ _), fun a ha => hst a (List.mem_cons_of_mem _ ha)⟩
  · simp only [Except.ok.injEq, Prod.mk.injEq] at h
    obtain ⟨rfl, rfl⟩ := h
    exact hi

theorem decodeE_even {c c' : CPU} {x nn : Nat} (h : decodeE c x nn = .ok c')
    (hp : c.pc % 2 = 0) : c'.pc % 2 = 0 := by
  unfold decodeE at h
  split at h
  · split at h <;> simp only [Except.ok.injEq] at h <;> subst h
    · split
      · show (c.pc + 2) % 65536 % 2 = 0
        omega
      · exact hp
    · split
      · show (c.pc + 2) % 65536 % 2 = 0
        omega
      · exact hp
    · exact hp
  · cases h

theorem decodeF_even {c c' : CPU} {mem mem' : Memory} {x nn : Nat}
    (h : decodeF c mem x nn = .ok (c', mem')) (hi : InvEven c mem) : InvEven c' mem' := by
  unfold decodeF at h
  simp only at h
  split at h
  case h_5 =>
    split at h <;> simp only [Except.ok.injEq, Prod.mk.injEq] at h <;> obtain ⟨rfl, rfl⟩ := h
    · have := hi.1
      exact ⟨by show (c.pc + 65536 - 2) % 65536 % 2 = 0; omega, hi.2⟩
    · exact hi
  case h_7 =>
    split at h
    · simp only [Except.ok.injEq, Prod.mk.injEq] at h
      obtain ⟨rfl, rfl⟩ := h
      exact hi
    · cases h
  case h_8 =>
    obtain ⟨h1, h2⟩ := storeRegs_pc_stack _ _ _ _ _ _ h
    exact ⟨h1 ▸ hi.1, h2 ▸ hi.2⟩
  case h_9 =>
    split at h
    · cases h
    · rename_i c2 hl
      simp only [Except.ok.injEq, Prod.mk.injEq] at h
      obtain ⟨rfl, rfl⟩ := h
      exact ⟨loadRegs_pc _ _ _ _ _ hl ▸ hi.1, hi.2⟩
  all_goals
    simp only [Except.ok.injEq, Prod.mk.injEq] at h
    obtain ⟨rfl, rfl⟩ := h
    exact hi

/-- Parity of `pc` and of the return addresses survives `decodeAndExecute` of every opcode
whose jump target is even. -/
theorem decodeAndExecute_even {c c' : CPU} {mem mem' : Memory} {op rnd : Nat}
    (h : decodeAndExecute c mem op rnd = .ok (c', mem')) (ht : evenTarget c op)
    (hi : InvEven c mem) : InvEven c' mem' := by
  have hnnn := nnn_eq_mod op
  have hpc := hi.1
  unfold evenTarget at ht
  unfold decodeAndExecute at h
  simp only at h
  split at h
  case h_1 => exact decode0_even h hi
  case h_2 =>
    rename_i htype
    simp only [Except.ok.injEq, Prod.mk.injEq] at h
    obtain ⟨rfl, rfl⟩ := h
    refine ⟨?_, hi.2⟩
    show (((op >>> 8 &&& 0x0F) <<< 8) ||| (((op >>> 4 &&& 0x0F) <<< 4) ||| (op &&& 0x0F))) % 2 = 0
    rw [hnnn]
    exact ht.1 (Or.inl htype)
  case h_3 =>
    rename_i htype
    simp only [Except.ok.injEq, Prod.mk.injEq] at h
    obtain ⟨rfl, rfl⟩ := h
    refine ⟨?_, fun a ha => ?_⟩
    · show (((op >>> 8 &&& 0x0F) <<< 8) ||| (((op >>> 4 &&& 0x0F) <<< 4) ||| (op &&& 0x0F))) % 2 = 0
      rw [hnnn]
      exact ht.1 (Or.inr htype)
    · rcases List.mem_cons.mp ha with rfl | ha
      · exact hi.1
      · exact hi.2 a ha
  case h_9 =>
    simp only [Except.ok.injEq, Prod.mk.injEq] at h
    obtain ⟨rfl, rfl⟩ := h
    exact ⟨(decode8_pc c _ _ _).symm ▸ hi.1, hi.2⟩
  case h_12 =>
    rename_i htype
    simp only [Except.ok.injEq, Prod.mk.injEq] at h
    obtain ⟨rfl, rfl⟩ := h
    refine ⟨?_, hi.2⟩
    show (c.v 0 + (((op >>> 8 &&& 0x0F) <<< 8) |||
      (((op >>> 4 &&& 0x0F) <<< 4) ||| (op &&& 0x0F)))) % 65536 % 2 = 0
    rw [hnnn]
    have := ht.2 htype
    omega
  case h_14 =>
    obtain ⟨h1, h2⟩ := drawGraphics_pc_stack h
    exact ⟨h1 ▸ hi.1, h2 ▸ hi.2⟩
  case h_15 =>
    split at h
    · cases h
    · rename_i c2 he
      simp only [Except.ok.injEq, Prod.mk.injEq] at h
      obtain ⟨rfl, rfl⟩ := h
      exact ⟨decodeE_even he hi.1, hi.2⟩
  case h_16 => exact decodeF_even h hi
  all_goals
    simp only [Except.ok.injEq, Prod.mk.injEq] at h
    obtain ⟨rfl, rfl⟩ := h
    first
      | exact hi
      | (refine ⟨?_, hi.2⟩
         split
         · show (c.pc + 2) % 65536 % 2 = 0
           omega
         · exact hi.1)

/-- C4, amended: in every state reachable from the freshly constructed CPU by any sequence
of fetch and decodeAndExecute calls over any RAM contents in which every executed `1nnn`
and `2nnn` has an even `nnn` and every executed `Bnnn` an even `v[0] + nnn`, `pc` is even;
`pc` is a 16-bit value that nothing masks to `[0, 4096)`: only directly after `1nnn` and
`2nnn` is it `nnn`, below 4096. -/
theorem pc_even_of_even_targets (c : CPU) (mem : Memory) (h : ReachableEven c mem) :
    c.pc % 2 = 0 ∧ c.pc < 65536 ∧
    ∀ (op rnd : Nat) (c' : CPU) (mem' : Memory),
      (op >>> 12) &&& 0x0F = 1 ∨ (op >>> 12) &&& 0x0F = 2 →
      decodeAndExecute c mem op rnd = .ok (c', mem') →
      c'.pc = op % 4096 ∧ c'.pc < 4096 := by
  have hi : InvEven c mem := by
    induction h with
    | init mem hs => exact ⟨by decide, by rw [hs]; intro a ha; cases ha⟩
    | fetch _ hf ih => exact fetch_even hf ih
    | exec _ ht he ih => exact decodeAndExecute_even he ht ih
  refine ⟨hi.1, pc_lt_65536 c mem (reachable_of_even h), ?_⟩
  intro op rnd c' mem' htype he
  have hnnn := nnn_eq_mod op
  unfold decodeAndExecute at he
  simp only at he
  rcases htype with h1 | h2
  · rw [h1] at he
    simp only [Except.ok.injEq, Prod.mk.injEq] at he
    obtain ⟨rfl, -⟩ := he
    exact ⟨hnnn, by show _ < 4096; rw [hnnn]; exact Nat.mod_lt _ (by decide)⟩
  · rw [h2] at he
    simp only [Except.ok.injEq, Prod.mk.injEq] at he
    obtain ⟨rfl, -⟩ := he
    exact ⟨hnnn, by show _ < 4096; rw [hnnn]; exact Nat.mod_lt _ (by decide)⟩

/-- C4 witness: with the call `2204` at the program entry and `00EE` at `0x204`, the state
after fetch, call, fetch and return is reachable with even targets; its `pc` is `0x202`. -/
theorem pc_even_of_even_targets_witness :
    ReachableEven { CPU.new with pc := 0x202 } alignedMem ∧
    ({ CPU.new with pc := 0x202 } : CPU).pc % 2 = 0 ∧
    ({ CPU.new with pc := 0x202 } : CPU).pc < 65536 := by
  have h0 : ReachableEven CPU.new alignedMem := ReachableEven.init alignedMem rfl
  have h1 : ReachableEven { CPU.new with pc := 0x202 } alignedMem :=
    @ReachableEven.fetch CPU.new _ alignedMem 0x2204 h0 rfl
  have h2 : ReachableEven { CPU.new with pc := 0x204 } { alignedMem with stack := [0x202] } :=
    @ReachableEven.exec _ _ alignedMem _ 0x2204 0 h1 (by unfold evenTarget; decide) rfl
  have h3 : ReachableEven { CPU.new with pc := 0x206 } { alignedMem with stack := [0x202] } :=
    @ReachableEven.fetch _ _ _ 0x00EE h2 rfl
  have h4 : ReachableEven { CPU.new with pc := 0x202 } alignedMem :=
    @ReachableEven.exec _ _ _ _ 0x00EE 0 h3 (by unfold evenTarget; decide) rfl
  have h := pc_even_of_even_targets _ _ h4
  exact ⟨h4, h.1, h.2.1⟩

/-! ## Sprite drawing, `Dxyn` -/

theorem write_xorMap (d e : Nat → Nat) (i b : Nat) :
    write (xorMap d e) i (xorMap d e i ^^^ b) = xorMap (write d i (d i ^^^ b)) e := by
  funext k
  unfold write xorMap
  by_cases h : k = i
  · simp only [h, if_true]
    rw [Nat.xor_assoc, Nat.xor_comm (e i), ← Nat.xor_assoc]
  · simp only [h, if_false]

theorem xorMap_zero_left (d : Nat → Nat) : xorMap (fun _ => 0) d = d := by
  funext k
  simp [xorMap]

theorem xorMap_comm (d e : Nat → Nat) : xorMap d e = xorMap e d := by
  funext k
  exact Nat.xor_comm _ _

theorem xorMap_cancel (d e : Nat → Nat) : xorMap (xorMap d e) e = d := by
  funext k
  exact Nat.xor_cancel_right _ _

theorem flag_step_agree (v1 v2 : Nat → Nat) (p q : Prop) [Decidable p] [Decidable q]
    (x : Nat) (hx : x ≠ 0x0F) (hv : v1 x = v2 x) :
    (if p then write v1 0x0F 1 else v1) x = (if q then write v2 0x0F 1 else v2) x := by
  split <;> split <;> simp [write_other _ _ _ _ hx, hv]

/-- The bits a sprite row XORs onto the display do not depend on the display: drawing on
`d` XOR `e` gives the result of drawing on `d`, XOR `e`. -/
theorem drawRow_xor (sprite yCoord x : Nat) (e : Nat → Nat) (hx : x ≠ 0x0F) (j : Nat) :
    ∀ (xCoord : Nat) (v1 v2 d v2' d2' : Nat → Nat), v1 x = v2 x →
      drawRow sprite yCoord j xCoord v2 d = .ok (v2', d2') →
      ∃ v1', drawRow sprite yCoord j xCoord v1 (xorMap d e) = .ok (v1', xorMap d2' e) ∧
        v1' x = v2' x := by
  induction j with
  | zero =>
    intro xc v1 v2 d v2' d2' hv h
    simp only [drawRow, Except.ok.injEq, Prod.mk.injEq] at h
    obtain ⟨rfl, rfl⟩ := h
    exact ⟨v1, rfl, hv⟩
  | succ j ih =>
    intro xc v1 v2 d v2' d2' hv h
    unfold drawRow at h ⊢
    simp only at h ⊢
    by_cases hidx : (yCoord * width + xc) % 65536 < displaySize
    · rw [if_pos hidx] at h ⊢
      rw [write_xorMap]
      by_cases hx63 : (xc + 1) % 256 > 63
      · rw [if_pos hx63] at h ⊢
        simp only [Except.ok.injEq, Prod.mk.injEq] at h
        obtain ⟨rfl, rfl⟩ := h
        exact ⟨_, rfl, flag_step_agree _ _ _ _ x hx hv⟩
      · rw [if_neg hx63] at h ⊢
        exact ih _ _ _ _ _ _ (flag_step_agree _ _ _ _ x hx hv) h
    · rw [if_neg hidx] at h
      cases h

theorem drawRow_ok (sprite yCoord : Nat) (hy : yCoord ≤ 31) (j : Nat) :
    ∀ (xCoord : Nat) (v d : Nat → Nat), xCoord ≤ 63 →
      ∃ r, drawRow sprite yCoord j xCoord v d = .ok r := by
  induction j with
  | zero =>
    intro xc v d _
    exact ⟨_, rfl⟩
  | succ j ih =>
    intro xc v d hxc
    unfold drawRow
    simp only
    have hidx : (yCoord * width + xc) % 65536 < displaySize := by
      unfold width displaySize width length
      omega
    rw [if_pos hidx]
    by_cases hx63 : (xc + 1) % 256 > 63
    · rw [if_pos hx63]
      exact ⟨_, rfl⟩
    · rw [if_neg hx63]
      exact ih _ _ _ (by omega)

theorem drawRow_v (sprite yCoord : Nat) (j : Nat) :
    ∀ (xCoord : Nat) (v d v' d' : Nat → Nat),
      drawRow sprite yCoord j xCoord v d = .ok (v', d') → ∀ r, r ≠ 0x0F → v' r = v r := by
  induction j with
  | zero =>
    intro xc v d v' d' h r _
    simp only [drawRow, Except.ok.injEq, Prod.mk.injEq] at h
    obtain ⟨rfl, rfl⟩ := h
    rfl
  | succ j ih =>
    intro xc v d v' d' h r hr
    unfold drawRow at h
    simp only at h
    have hstep : ∀ (p : Prop) [Decidable p], (if p then write v 0x0F 1 else v) r = v r := by
      intro p _
      split
      · exact write_other _ _ _ _ hr
      · rfl
    split at h
    · split at h
      · simp only [Except.ok.injEq, Prod.mk.injEq] at h
        obtain ⟨rfl, rfl⟩ := h
        exact hstep _
      · rw [ih _ _ _ _ _ h r hr]
        exact hstep _
    · cases h

theorem drawRows_xor (ram : Nat → Nat) (iReg x : Nat) (e : Nat → Nat) (hx : x ≠ 0x0F)
    (k : Nat) :
    ∀ (i xCoord yCoord : Nat) (v1 v2 d v2' d2' : Nat → Nat), v1 x = v2 x →
      drawRows ram iReg x k i xCoord yCoord v2 d = .ok (v2', d2') →
      ∃ v1', drawRows ram iReg x k i xCoord yCoord v1 (xorMap d e) = .ok (v1', xorMap d2' e) ∧
        v1' x = v2' x := by
  induction k with
  | zero =>
    intro i xc yc v1 v2 d v2' d2' hv h
    simp only [drawRows, Except.ok.injEq, Prod.mk.injEq] at h
    obtain ⟨rfl, rfl⟩ := h
    exact ⟨v1, rfl, hv⟩
  | succ k ih =>
    intro i xc yc v1 v2 d v2' d2' hv h
    unfold drawRows at h ⊢
    simp only at h ⊢
    by_cases hram : iReg + i < ramSize
    · rw [if_pos hram] at h ⊢
      cases hr : drawRow (ram (iReg + i)) yc 8 xc v2 d with
      | error f =>
        rw [hr] at h
        cases h
      | ok p =>
        obtain ⟨va, da⟩ := p
        rw [hr] at h
        simp only at h
        obtain ⟨v1a, hr1, hv1a⟩ := drawRow_xor _ yc x e hx 8 xc v1 v2 d va da hv hr
        rw [hr1]
        simp only
        rw [hv1a]
        by_cases hy31 : (yc + 1) % 256 > 31
        · rw [if_pos hy31] at h ⊢
          simp only [Except.ok.injEq, Prod.mk.injEq] at h
          obtain ⟨rfl, rfl⟩ := h
          exact ⟨_, rfl, hv1a⟩
        · rw [if_neg hy31] at h ⊢
          exact ih _ _ _ _ _ _ _ _ hv1a h
    · rw [if_neg hram] at h
      cases h

theorem drawRows_ok (ram : Nat → Nat) (iReg x : Nat) (k : Nat) :
    ∀ (i xCoord yCoord : Nat) (v d : Nat → Nat), iReg + i + k ≤ 4096 → xCoord ≤ 63 →
      yCoord ≤ 31 → ∃ r, drawRows ram iReg x k i xCoord yCoord v d = .ok r := by
  induction k with
  | zero =>
    intro i xc yc v d _ _ _
    exact ⟨_, rfl⟩
  | succ k ih =>
    intro i xc yc v d hi hxc hyc
    unfold drawRows
    simp only
    have hram : iReg + i < ramSize := by
      unfold ramSize
      omega
    rw [if_pos hram]
    obtain ⟨⟨va, da⟩, hr⟩ := drawRow_ok (ram (iReg + i)) yc hyc 8 xc v d hxc
    rw [hr]
    simp only
    by_cases hy31 : (yc + 1) % 256 > 31
    · rw [if_pos hy31]
      exact ⟨_, rfl⟩
    · rw [if_neg hy31]
      have hx63 : va x &&& 63 ≤ 63 := Nat.and_le_right
      exact ih _ _ _ _ _ (by omega) hx63 (by omega)

theorem drawRows_v (ram : Nat → Nat) (iReg x : Nat) (k : Nat) :
    ∀ (i xCoord yCoord : Nat) (v d v' d' : Nat → Nat),
      drawRows ram iReg x k i xCoord yCoord v d = .ok (v', d') →
      ∀ r, r ≠ 0x0F → v' r = v r := by
  induction k with
  | zero =>
    intro i xc yc v d v' d' h r _
    simp only [drawRows, Except.ok.injEq, Prod.mk.injEq] at h
    obtain ⟨rfl, rfl⟩ := h
    rfl
  | succ k ih =>
    intro i xc yc v d v' d' h r hr
    unfold drawRows at h
    simp only at h
    split at h
    · cases hrow : drawRow (ram (iReg + i)) yc 8 xc v d with
      | error f =>
        rw [hrow] at h
        cases h
      | ok p =>
        obtain ⟨va, da⟩ := p
        rw [hrow] at h
        simp only at h
        have hva := drawRow_v _ yc 8 xc v d va da hrow r hr
        split at h
        · simp only [Except.ok.injEq, Prod.mk.injEq] at h
          obtain ⟨rfl, rfl⟩ := h
          exact hva
        · rw [ih _ _ _ _ _ _ _ h r hr]
          exact hva
    · cases h

/-- C6: for every display, every `n` in `0..15`, every `iReg` with `iReg + n ≤ 4096` and
every `x`, `y` other than `0xF`, `Dxyn` executed twice in succession returns both times
and leaves the display exactly as it was before the first draw. -/
theorem draw_twice_restores (c : CPU) (mem : Memory) (x y n rnd1 rnd2 : Nat) (hx : x < 15)
    (hy : y < 15) (hn : n ≤ 15) (hi : c.iReg + n ≤ 4096) :
    ∃ c1 m1 c2 m2, decodeAndExecute c mem (encode 0xD x y n) rnd1 = .ok (c1, m1) ∧
      decodeAndExecute c1 m1 (encode 0xD x y n) rnd2 = .ok (c2, m2) ∧
      m2.display = mem.display := by
  have hx' : x ≠ 0x0F := by omega
  have hy' : y ≠ 0x0F := by omega
  rw [decodeAndExecute_D c mem x y n rnd1 (by omega) (by omega) (by omega)]
  obtain ⟨⟨v1, d1⟩, h1⟩ := drawRows_ok mem.ram c.iReg x n 0 (c.v x % width) (c.v y % length)
    (write c.v 0x0F 0) mem.display (by omega) (by unfold width; omega)
    (by unfold length; omega)
  have hv1 := drawRows_v _ _ _ _ _ _ _ _ _ _ _ h1
  have hv1x : v1 x = c.v x := by rw [hv1 x hx', write_other _ _ _ _ hx']
  have hv1y : v1 y = c.v y := by rw [hv1 y hy', write_other _ _ _ _ hy']
  refine ⟨{ c with v := v1 }, { mem with display := d1 }, ?_⟩
  rw [decodeAndExecute_D _ _ x y n rnd2 (by omega) (by omega) (by omega)]
  -- the pixels of the sprite alone, drawn on the empty display
  obtain ⟨⟨vz, dz⟩, hz⟩ := drawRows_ok mem.ram c.iReg x n 0 (c.v x % width)
    (c.v y % length) (write c.v 0x0F 0) (fun _ => 0) (by omega) (by unfold width; omega)
    (by unfold length; omega)
  obtain ⟨va, ha, -⟩ := drawRows_xor mem.ram c.iReg x mem.display hx' n 0 _ _
    (write c.v 0x0F 0) (write c.v 0x0F 0) _ vz dz rfl hz
  rw [xorMap_zero_left, h1] at ha
  simp only [Except.ok.injEq, Prod.mk.injEq] at ha
  obtain ⟨-, hd1⟩ := ha
  have hvb : (write v1 0x0F 0) x = (write c.v 0x0F 0) x := by
    rw [write_other _ _ _ _ hx', write_other _ _ _ _ hx', hv1x]
  obtain ⟨vb, hb, -⟩ := drawRows_xor mem.ram c.iReg x dz hx' n 0 _ _
    (write v1 0x0F 0) (write c.v 0x0F 0) _ v1 d1 hvb h1
  have hd2 : xorMap mem.display dz = d1 := by rw [hd1, xorMap_comm]
  rw [hd2] at hb
  refine ⟨{ c with v := vb }, { mem with display := xorMap d1 dz }, ?_, ?_, ?_⟩
  · simp only [drawGraphics, h1]
  · simp only [drawGraphics, hv1x, hv1y, hb]
  · show xorMap d1 dz = mem.display
    rw [hd1, xorMap_comm dz, xorMap_cancel]

/-- C6 witness: the glyph at address 0 drawn twice at `(0, 0)` on the freshly constructed
machine. -/
theorem draw_twice_restores_witness :
    ∃ c1 m1 c2 m2, decodeAndExecute CPU.new Memory.new (encode 0xD 0 1 5) 0 = .ok (c1, m1) ∧
      decodeAndExecute c1 m1 (encode 0xD 0 1 5) 0 = .ok (c2, m2) ∧
      m2.display = Memory.new.display :=
  draw_twice_restores CPU.new Memory.new 0 1 5 0 0 (by decide) (by decide) (by decide)
    (by decide)

/-! ## Fetching an instruction -/

theorem word_eq (a b : Nat) (ha : a < 256) (hb : b < 256) :
    ((a <<< 8) % 65536) ||| b = a * 256 + b := by
  have h : a <<< 8 < 65536 := by rw [Nat.shiftLeft_eq]; omega
  rw [Nat.mod_eq_of_lt h]
  exact shl_or a b 8 hb

theorem fetch_eq (c : CPU) (mem : Memory) (a b : Nat) (hp : c.pc + 1 < 4096)
    (h1 : mem.ram c.pc = a) (h2 : mem.ram (c.pc + 1) = b) (ha : a < 256) (hb : b < 256) :
    fetch c mem = .ok (a * 256 + b, { c with pc := c.pc + 2 }) := by
  unfold fetch
  rw [if_pos (show c.pc + 1 < ramSize from hp)]
  simp only [h1, h2, word_eq a b ha hb]
  rw [Nat.mod_eq_of_lt (show c.pc + 2 < 65536 by omega)]

/-! ## Call and return -/

/-- C7: a `2nnn` located at `p = pc` (inside RAM), fetched and executed, sets `pc = nnn`
and pushes `p + 2`; a `00EE` executed in any later state whose stack is still the one the
call left sets `pc = p + 2` and leaves the stack as it was before the call. -/
theorem call_return_roundtrip (c : CPU) (mem : Memory) (nnn rnd : Nat)
    (hp : c.pc + 1 < 4096) (hnnn : nnn < 4096) (h1 : mem.ram c.pc = 0x20 + nnn / 256)
    (h2 : mem.ram (c.pc + 1) = nnn % 256) :
    step c mem rnd =
      .ok ({ c with pc := nnn }, { mem with stack := (c.pc + 2) :: mem.stack }) ∧
    ∀ (c' : CPU) (mem' : Memory) (rnd' : Nat), mem'.stack = (c.pc + 2) :: mem.stack →
      decodeAndExecute c' mem' 0x00EE rnd' =
        .ok ({ c' with pc := c.pc + 2 }, { mem' with stack := mem.stack }) := by
  constructor
  · unfold step
    rw [fetch_eq c mem _ _ hp h1 h2 (by omega) (by omega)]
    simp only
    have hop : (0x20 + nnn / 256) * 256 + nnn % 256 =
        encode 2 (nnn / 256) (nnn / 16 % 16) (nnn % 16) := by
      unfold encode
      omega
    rw [hop, decodeAndExecute_2 _ _ _ _ _ _ (by omega) (by omega) (by omega)]
    have hn : nnn / 256 * 256 + (nnn / 16 % 16 * 16 + nnn % 16) = nnn := by omega
    rw [hn]
  · intro c' mem' rnd' hs
    have h0 : decodeAndExecute c' mem' 0x00EE rnd' = decode0 c' mem' 0x0EE := rfl
    rw [h0]
    unfold decode0
    simp only [hs]

/-- C7 witness: the call `2345` at the program entry of the freshly constructed machine,
followed by `00EE`. -/
theorem call_return_roundtrip_witness :
    step CPU.new callMem 0 =
      .ok ({ CPU.new with pc := 0x345 }, { callMem with stack := [0x202] }) ∧
    decodeAndExecute { CPU.new with pc := 0x345 } { callMem with stack := [0x202] } 0x00EE 0 =
      .ok ({ CPU.new with pc := 0x202 }, callMem) :=
  ⟨(call_return_roundtrip CPU.new callMem 0x345 0 (by decide) (by decide) (by decide)
      (by decide)).1,
    (call_return_roundtrip CPU.new callMem 0x345 0 (by decide) (by decide) (by decide)
      (by decide)).2 { CPU.new with pc := 0x345 } { callMem with stack := [0x202] } 0 rfl⟩

/-! ## Key wait, `Fx0A` -/

/-- C8: an `Fx0A` located at `pc` (inside RAM), fetched and executed: with
`lastKeyReleased = -1` the whole state (so `pc`, every register, RAM, timers, display) is
as before the fetch; with `lastKeyReleased = k` in `0..15`, `v[x] = k`, `pc` is 2 past its
value before the fetch and nothing else changes. -/
theorem key_wait (c : CPU) (mem : Memory) (x rnd : Nat) (hx : x < 16)
    (hp : c.pc + 1 < 4096) (h1 : mem.ram c.pc = 0xF0 + x) (h2 : mem.ram (c.pc + 1) = 0x0A) :
    (c.lastKeyReleased = -1 → step c mem rnd = .ok (c, mem)) ∧
    (∀ k : Nat, k ≤ 15 → c.lastKeyReleased = (k : Int) →
      step c mem rnd = .ok ({ c with pc := c.pc + 2, v := write c.v x k }, mem)) := by
  have hop : (0xF0 + x) * 256 + 0x0A = encode 0xF x 0 0xA := by
    unfold encode
    omega
  have hstep : step c mem rnd = decodeF { c with pc := c.pc + 2 } mem x 0x0A := by
    unfold step
    rw [fetch_eq c mem _ _ hp h1 h2 (by omega) (by omega)]
    simp only
    rw [hop, decodeAndExecute_F _ _ _ _ _ _ hx (by omega) (by omega)]
  rw [hstep]
  constructor
  · intro hk
    unfold decodeF
    simp only
    have hpc : (c.pc + 2 + 65536 - 2) % 65536 = c.pc := by omega
    rw [if_pos hk, hpc]
  · intro k hk hl
    unfold decodeF
    have hne : ¬ ((k : Int) = -1) := by omega
    have hto : ((k : Int) % 256).toNat = k := by omega
    simp only [hl, hne, if_false, hto]

/-- C8 witness: the key wait `F30A` at the program entry, first with no key released, then
after the release of key 7. -/
theorem key_wait_witness :
    step CPU.new keyWaitMem 0 = .ok (CPU.new, keyWaitMem) ∧
    step keyedCpu keyWaitMem 0 =
      .ok ({ keyedCpu with pc := 0x202, v := write keyedCpu.v 3 7 }, keyWaitMem) :=
  ⟨(key_wait CPU.new keyWaitMem 3 0 (by decide) (by decide) (by decide) (by decide)).1 rfl,
    (key_wait keyedCpu keyWaitMem 3 0 (by decide) (by decide) (by decide) (by decide)).2 7
      (by decide) rfl⟩

/-! ## Register dump and load, `Fx55` and `Fx65` -/

theorem storeRegs_spec (k : Nat) : ∀ (i : Nat) (c : CPU) (mem : Memory),
    c.iReg + k ≤ 4096 →
    ∃ r, storeRegs k i c mem =
        .ok ({ c with iReg := c.iReg + k }, { mem with ram := r }) ∧
      ∀ a, r a = if c.iReg ≤ a ∧ a < c.iReg + k then c.v (i + (a - c.iReg)) else mem.ram a := by
  induction k with
  | zero =>
    intro i c mem _
    refine ⟨mem.ram, rfl, fun a => ?_⟩
    rw [if_neg (by omega)]
  | succ k ih =>
    intro i c mem hk
    unfold storeRegs
    rw [if_pos (show c.iReg < ramSize by unfold ramSize; omega)]
    have hmod : (c.iReg + 1) % 65536 = c.iReg + 1 := Nat.mod_eq_of_lt (by omega)
    rw [hmod]
    obtain ⟨r, hr, hra⟩ := ih (i + 1) { c with iReg := c.iReg + 1 }
      { mem with ram := write mem.ram c.iReg (c.v i) } (by show c.iReg + 1 + k ≤ 4096; omega)
    refine ⟨r, ?_, fun a => ?_⟩
    · rw [hr]
      have : c.iReg + 1 + k = c.iReg + (k + 1) := by omega
      simp only [this]
    · rw [hra a]
      simp only
      by_cases h1 : a = c.iReg
      · subst h1
        rw [if_neg (by omega), if_pos (by omega), write_same]
        simp
      · rw [write_other _ _ _ _ h1]
        by_cases h2 : c.iReg + 1 ≤ a ∧ a < c.iReg + 1 + k
        · rw [if_pos h2, if_pos (by omega)]
          congr 1
          omega
        · rw [if_neg h2, if_neg (by omega)]

theorem loadRegs_spec (mem : Memory) (k : Nat) : ∀ (i : Nat) (c : CPU),
    c.iReg + k ≤ 4096 →
    ∃ w, loadRegs mem k i c = .ok { c with iReg := c.iReg + k, v := w } ∧
      ∀ r, w r = if i ≤ r ∧ r < i + k then mem.ram (c.iReg + (r - i)) else c.v r := by
  induction k with
  | zero =>
    intro i c _
    refine ⟨c.v, rfl, fun r => ?_⟩
    rw [if_neg (by omega)]
  | succ k ih =>
    intro i c hk
    unfold loadRegs
    rw [if_pos (show c.iReg < ramSize by unfold ramSize; omega)]
    have hmod : (c.iReg + 1) % 65536 = c.iReg + 1 := Nat.mod_eq_of_lt (by omega)
    rw [hmod]
    obtain ⟨w, hw, hwr⟩ := ih (i + 1)
      { c with v := write c.v i (mem.ram c.iReg), iReg := c.iReg + 1 }
      (by show c.iReg + 1 + k ≤ 4096; omega)
    refine ⟨w, ?_, fun r => ?_⟩
    · rw [hw]
      have : c.iReg + 1 + k = c.iReg + (k + 1) := by omega
      simp only [this]
    · rw [hwr r]
      simp only
      by_cases h1 : r = i
      · subst h1
        rw [if_neg (by omega), if_pos (by omega), write_same]
        simp
      · rw [write_other _ _ _ _ h1]
        by_cases h2 : i + 1 ≤ r ∧ r < i + 1 + k
        · rw [if_pos h2, if_pos (by omega)]
          congr 1
          omega
        · rw [if_neg h2, if_neg (by omega)]

/-- C9: for `x` in `0..15` and `a = iReg` with `a + x < 4096`, `Fx55` returns, writes
`v[i]` to `ram[a + i]` for each `i ≤ x`, changes no other RAM byte and no register, and
leaves `iReg = a + x + 1`; `Fx65` executed afterwards from any CPU state with `iReg = a`
returns, loads `v[0..x]` with the values they had before the `Fx55`, leaves `v[x+1..15]`
as they are, leaves RAM as it is and again leaves `iReg = a + x + 1`. -/
theorem store_load_roundtrip (c : CPU) (mem : Memory) (x rnd : Nat) (hx : x < 16)
    (ha : c.iReg + x < 4096) :
    ∃ r, decodeAndExecute c mem (encode 0xF x 5 5) rnd =
        .ok ({ c with iReg := c.iReg + x + 1 }, { mem with ram := r }) ∧
      (∀ i, i ≤ x → r (c.iReg + i) = c.v i) ∧
      (∀ j, j < c.iReg ∨ c.iReg + x < j → r j = mem.ram j) ∧
      ∀ (c2 : CPU) (rnd2 : Nat), c2.iReg = c.iReg →
        ∃ w, decodeAndExecute c2 { mem with ram := r } (encode 0xF x 6 5) rnd2 =
            .ok ({ c2 with iReg := c.iReg + x + 1, v := w }, { mem with ram := r }) ∧
          (∀ i, i ≤ x → w i = c.v i) ∧ (∀ i, x < i → w i = c2.v i) := by
  obtain ⟨r, hr, hra⟩ := storeRegs_spec (x + 1) 0 c mem (by omega)
  have hri : ∀ i, i ≤ x → r (c.iReg + i) = c.v i := by
    intro i hi
    rw [hra, if_pos (by omega)]
    congr 1
    omega
  refine ⟨r, ?_, hri, ?_, ?_⟩
  · rw [decodeAndExecute_F c mem x 5 5 rnd hx (by omega) (by omega)]
    unfold decodeF
    simp only
    exact hr
  · intro j hj
    rw [hra, if_neg (by omega)]
  · intro c2 rnd2 h2
    obtain ⟨w, hw, hwr⟩ := loadRegs_spec { mem with ram := r } (x + 1) 0 c2
      (by rw [h2]; omega)
    refine ⟨w, ?_, ?_, ?_⟩
    · rw [decodeAndExecute_F c2 _ x 6 5 rnd2 hx (by omega) (by omega)]
      unfold decodeF
      simp only
      rw [hw, h2]
      rfl
    · intro i hi
      rw [hwr, if_pos (by omega), h2]
      simp only [Nat.sub_zero]
      exact hri i hi
    · intro i hi
      rw [hwr, if_neg (by omega)]

/-- C9 witness: `x = 2`, stored from registers with `v[2] = 213` and `iReg = 0x300`, loaded
back into a freshly constructed CPU whose `iReg` was set to `0x300`. -/
theorem store_load_roundtrip_witness :
    ∃ r, decodeAndExecute bcdRegs Memory.new (encode 0xF 2 5 5) 0 =
        .ok ({ bcdRegs with iReg := 0x303 }, { Memory.new with ram := r }) ∧
      (∀ i, i ≤ 2 → r (0x300 + i) = bcdRegs.v i) ∧
      (∀ j, j < 0x300 ∨ 0x302 < j → r j = Memory.new.ram j) ∧
      ∃ w, decodeAndExecute { CPU.new with iReg := 0x300 } { Memory.new with ram := r }
            (encode 0xF 2 6 5) 0 =
          .ok ({ CPU.new with iReg := 0x303, v := w }, { Memory.new with ram := r }) ∧
        (∀ i, i ≤ 2 → w i = bcdRegs.v i) ∧ (∀ i, 2 < i → w i = 0) :=
  match store_load_roundtrip bcdRegs Memory.new 2 0 (by decide) (by decide) with
  | ⟨r, h1, h2, h3, h4⟩ => ⟨r, h1, h2, h3, h4 { CPU.new with iReg := 0x300 } 0 rfl⟩

/-! ## Binary-coded decimal, `Fx33` -/

/-- C10: for `v[x]` in `[0,255]` and `iReg + 2 < 4096`, `Fx33` returns, leaves
`ram[iReg]`, `ram[iReg+1]`, `ram[iReg+2]` each in `0..9` with
`100 * ram[iReg] + 10 * ram[iReg+1] + ram[iReg+2] = v[x]`, and changes no other RAM byte,
no register and not `iReg`. -/
theorem bcd_digits (c : CPU) (mem : Memory) (x rnd : Nat) (hx : x < 16)
    (hv : c.v x < 256) (hi : c.iReg + 2 < 4096) :
    ∃ r, decodeAndExecute c mem (encode 0xF x 3 3) rnd = .ok (c, { mem with ram := r }) ∧
      r c.iReg ≤ 9 ∧ r (c.iReg + 1) ≤ 9 ∧ r (c.iReg + 2) ≤ 9 ∧
      100 * r c.iReg + 10 * r (c.iReg + 1) + r (c.iReg + 2) = c.v x ∧
      ∀ j, j ≠ c.iReg → j ≠ c.iReg + 1 → j ≠ c.iReg + 2 → r j = mem.ram j := by
  rw [decodeAndExecute_F c mem x 3 3 rnd hx (by omega) (by omega)]
  unfold decodeF
  simp only
  rw [if_pos (show c.iReg + 2 < ramSize from hi)]
  have e0 : write (write (write mem.ram c.iReg (c.v x / 100 % 10)) (c.iReg + 1)
      (c.v x / 10 % 10)) (c.iReg + 2) (c.v x % 10) c.iReg = c.v x / 100 % 10 := by
    rw [write_other _ _ _ _ (by omega), write_other _ _ _ _ (by omega), write_same]
  have e1 : write (write (write mem.ram c.iReg (c.v x / 100 % 10)) (c.iReg + 1)
      (c.v x / 10 % 10)) (c.iReg + 2) (c.v x % 10) (c.iReg + 1) = c.v x / 10 % 10 := by
    rw [write_other _ _ _ _ (by omega), write_same]
  refine ⟨_, rfl, ?_, ?_, ?_, ?_, ?_⟩
  · rw [e0]; omega
  · rw [e1]; omega
  · rw [write_same]; omega
  · rw [e0, e1, write_same]; omega
  · intro j h0 h1 h2
    rw [write_other _ _ _ _ h2, write_other _ _ _ _ h1, write_other _ _ _ _ h0]

/-- C10 witness: `x = 2` with `v[2] = 213` and `iReg = 0x300`. -/
theorem bcd_digits_witness :
    ∃ r, decodeAndExecute bcdRegs Memory.new (encode 0xF 2 3 3) 0 =
        .ok (bcdRegs, { Memory.new with ram := r }) ∧
      r bcdRegs.iReg ≤ 9 ∧ r (bcdRegs.iReg + 1) ≤ 9 ∧ r (bcdRegs.iReg + 2) ≤ 9 ∧
      100 * r bcdRegs.iReg + 10 * r (bcdRegs.iReg + 1) + r (bcdRegs.iReg + 2) = bcdRegs.v 2 ∧
      ∀ j, j ≠ bcdRegs.iReg → j ≠ bcdRegs.iReg + 1 → j ≠ bcdRegs.iReg + 2 →
        r j = Memory.new.ram j :=
  bcd_digits bcdRegs Memory.new 2 0 (by decide) (by decide) (by decide)

/-! ## Logical opcodes `8xy1`, `8xy2`, `8xy3` -/

/-- C11: for all register indices `x`, `y` (also `0xF`) and every register file, each of
`8xy1`, `8xy2`, `8xy3` returns and leaves `v[0xF] = 0`, for `x ≠ 0xF` leaves `v[x]` equal
to the OR, AND, XOR of the old `v[x]` and `v[y]`, and leaves every register other than
`v[x]` and `v[0xF]` unchanged. -/
theorem logic_ops (c : CPU) (mem : Memory) (x y rnd : Nat) (hx : x < 16) (hy : y < 16) :
    (∃ c', decodeAndExecute c mem (encode 8 x y 1) rnd = .ok (c', mem) ∧ c'.v 0x0F = 0 ∧
      (x ≠ 0x0F → c'.v x = c.v x ||| c.v y) ∧
      ∀ r, r ≠ x → r ≠ 0x0F → c'.v r = c.v r) ∧
    (∃ c', decodeAndExecute c mem (encode 8 x y 2) rnd = .ok (c', mem) ∧ c'.v 0x0F = 0 ∧
      (x ≠ 0x0F → c'.v x = c.v x &&& c.v y) ∧
      ∀ r, r ≠ x → r ≠ 0x0F → c'.v r = c.v r) ∧
    (∃ c', decodeAndExecute c mem (encode 8 x y 3) rnd = .ok (c', mem) ∧ c'.v 0x0F = 0 ∧
      (x ≠ 0x0F → c'.v x = c.v x ^^^ c.v y) ∧
      ∀ r, r ≠ x → r ≠ 0x0F → c'.v r = c.v r) := by
  rw [decodeAndExecute_8 c mem x y 1 rnd hx hy (by omega),
    decodeAndExecute_8 c mem x y 2 rnd hx hy (by omega),
    decodeAndExecute_8 c mem x y 3 rnd hx hy (by omega)]
  refine ⟨⟨_, rfl, ?_, ?_, ?_⟩, ⟨_, rfl, ?_, ?_, ?_⟩, ⟨_, rfl, ?_, ?_, ?_⟩⟩
  · simp [decode8]
  · intro h; simp [decode8, write_other _ _ _ _ h]
  · intro r h1 h2; simp [decode8, write_other _ _ _ _ h1, write_other _ _ _ _ h2]
  · simp [decode8]
  · intro h; simp [decode8, write_other _ _ _ _ h]
  · intro r h1 h2; simp [decode8, write_other _ _ _ _ h1, write_other _ _ _ _ h2]
  · simp [decode8]
  · intro h; simp [decode8, write_other _ _ _ _ h]
  · intro r h1 h2; simp [decode8, write_other _ _ _ _ h1, write_other _ _ _ _ h2]

/-- C11 witness: `x = 0`, `y = 1` with `v[0] = 0x0C`, `v[1] = 0x0A`. -/
theorem logic_ops_witness :
    (∃ c', decodeAndExecute logicRegs Memory.new (encode 8 0 1 1) 0 = .ok (c', Memory.new) ∧
      c'.v 0x0F = 0 ∧ c'.v 0 = 0x0E) ∧
    (∃ c', decodeAndExecute logicRegs Memory.new (encode 8 0 1 2) 0 = .ok (c', Memory.new) ∧
      c'.v 0x0F = 0 ∧ c'.v 0 = 0x08) ∧
    (∃ c', decodeAndExecute logicRegs Memory.new (encode 8 0 1 3) 0 = .ok (c', Memory.new) ∧
      c'.v 0x0F = 0 ∧ c'.v 0 = 0x06) :=
  match logic_ops logicRegs Memory.new 0 1 0 (by decide) (by decide) with
  | ⟨⟨c1, e1, f1, g1, _⟩, ⟨c2, e2, f2, g2, _⟩, ⟨c3, e3, f3, g3, _⟩⟩ =>
    ⟨⟨c1, e1, f1, g1 (by decide)⟩, ⟨c2, e2, f2, g2 (by decide)⟩, ⟨c3, e3, f3, g3 (by decide)⟩⟩

/-! ## Load and add immediate, `6xnn` and `7xnn` -/

theorem decodeAndExecute_6 (c : CPU) (mem : Memory) (x y n rnd : Nat) (hx : x < 16)
    (hy : y < 16) (hn : n < 16) :
    decodeAndExecute c mem (encode 6 x y n) rnd =
      .ok ({ c with v := write c.v x (y * 16 + n) }, mem) := by
  simp only [decodeAndExecute, encode_type 6 x y n (by omega) hx hy hn,
    encode_x 6 x y n hx hy hn, encode_y 6 x y n hy hn, encode_n 6 x y n hn, nn_eq y n hn]

theorem decodeAndExecute_7 (c : CPU) (mem : Memory) (x y n rnd : Nat) (hx : x < 16)
    (hy : y < 16) (hn : n < 16) :
    decodeAndExecute c mem (encode 7 x y n) rnd =
      .ok ({ c with v := write c.v x ((c.v x + (y * 16 + n)) % 256) }, mem) := by
  simp only [decodeAndExecute, encode_type 7 x y n (by omega) hx hy hn,
    encode_x 7 x y n hx hy hn, encode_y 7 x y n hy hn, encode_n 7 x y n hn, nn_eq y n hn]

/-- C12: for every register index `x` and byte `nn`, `6xnn` returns and leaves `v[x] = nn`
with every other register, `pc`, `iReg` and the memory unchanged; for bytes `nn1`, `nn2`,
`7xnn1` then `7xnn2` return and leave `v[x] = (a + nn1 + nn2) mod 256` where `a` is the old
`v[x]` (so `(nn1 + nn2) mod 256` when `a = 0`), every other register (in particular
`v[0xF]` when `x ≠ 0xF`), `pc` and `iReg` unchanged. -/
theorem load_add_immediate (c : CPU) (mem : Memory) (x nn nn1 nn2 rnd r1 r2 : Nat)
    (hx : x < 16) (hnn : nn < 256) (h1 : nn1 < 256) (h2 : nn2 < 256) :
    (∃ c', decodeAndExecute c mem (encode 6 x (nn / 16) (nn % 16)) rnd = .ok (c', mem) ∧
      c'.v x = nn ∧ (∀ r, r ≠ x → c'.v r = c.v r) ∧ c'.pc = c.pc ∧ c'.iReg = c.iReg) ∧
    (∃ c1 c2, decodeAndExecute c mem (encode 7 x (nn1 / 16) (nn1 % 16)) r1 = .ok (c1, mem) ∧
      decodeAndExecute c1 mem (encode 7 x (nn2 / 16) (nn2 % 16)) r2 = .ok (c2, mem) ∧
      c2.v x = (c.v x + nn1 + nn2) % 256 ∧ (c.v x = 0 → c2.v x = (nn1 + nn2) % 256) ∧
      (∀ r, r ≠ x → c2.v r = c.v r) ∧ (x ≠ 0x0F → c2.v 0x0F = c.v 0x0F) ∧
      c2.pc = c.pc ∧ c2.iReg = c.iReg) := by
  have e : nn / 16 * 16 + nn % 16 = nn := by omega
  have e1 : nn1 / 16 * 16 + nn1 % 16 = nn1 := by omega
  have e2 : nn2 / 16 * 16 + nn2 % 16 = nn2 := by omega
  constructor
  · rw [decodeAndExecute_6 c mem x _ _ rnd hx (by omega) (by omega), e]
    exact ⟨_, rfl, write_same _ _ _, fun r hr => write_other _ _ _ _ hr, rfl, rfl⟩
  · rw [decodeAndExecute_7 c mem x _ _ r1 hx (by omega) (by omega), e1]
    refine ⟨_, _, rfl, decodeAndExecute_7 _ mem x _ _ r2 hx (by omega) (by omega), ?_⟩
    rw [e2]
    have hv : (write (write c.v x ((c.v x + nn1) % 256)) x
        ((write c.v x ((c.v x + nn1) % 256) x + nn2) % 256)) x =
        (c.v x + nn1 + nn2) % 256 := by
      rw [write_same, write_same]
      omega
    refine ⟨hv, ?_, ?_, ?_, rfl, rfl⟩
    · intro h0
      show (write (write c.v x _) x _) x = _
      rw [hv, h0, Nat.zero_add]
    · intro r hr
      show (write (write c.v x _) x _) r = _
      rw [write_other _ _ _ _ hr, write_other _ _ _ _ hr]
    · intro hF
      show (write (write c.v x _) x _) 0x0F = _
      rw [write_other _ _ _ _ (Ne.symm hF), write_other _ _ _ _ (Ne.symm hF)]

/-- C12 witness: `6207`, and `72C8` then `7264` (200 + 100) on the freshly constructed
machine. -/
theorem load_add_immediate_witness :
    (∃ c', decodeAndExecute CPU.new Memory.new (encode 6 2 0 7) 0 = .ok (c', Memory.new) ∧
      c'.v 2 = 7) ∧
    (∃ c1 c2, decodeAndExecute CPU.new Memory.new (encode 7 2 0xC 8) 0 = .ok (c1, Memory.new) ∧
      decodeAndExecute c1 Memory.new (encode 7 2 6 4) 0 = .ok (c2, Memory.new) ∧
      c2.v 2 = 44 ∧ c2.v 0x0F = 0) :=
  match load_add_immediate CPU.new Memory.new 2 7 200 100 0 0 0 (by decide) (by decide)
    (by decide) (by decide) with
  | ⟨⟨c', e, f, _⟩, ⟨c1, c2, g1, g2, g3, _, _, g6, _⟩⟩ =>
    ⟨⟨c', e, f⟩, ⟨c1, c2, g1, g2, g3, g6 (by decide)⟩⟩

/-! ## Fetch -/

/-- C13: for every RAM content (bytes) and every `pc` with `pc + 1 < 4096`, `fetch` returns
the big-endian word `256 * ram[pc] + ram[pc + 1]`, leaves `pc` increased by exactly 2 and
changes nothing else of the CPU; the memory is only read. -/
theorem fetch_word (c : CPU) (mem : Memory) (hp : c.pc + 1 < 4096)
    (h1 : mem.ram c.pc < 256) (h2 : mem.ram (c.pc + 1) < 256) :
    fetch c mem =
      .ok (256 * mem.ram c.pc + mem.ram (c.pc + 1), { c with pc := c.pc + 2 }) := by
  rw [fetch_eq c mem _ _ hp rfl rfl h1 h2, Nat.mul_comm]

/-- C13 witness: the fetch of `0x2345` at the program entry. -/
theorem fetch_word_witness :
    fetch CPU.new callMem = .ok (0x2345, { CPU.new with pc := 0x202 }) :=
  fetch_word CPU.new callMem (by decide) (by decide) (by decide)

/-! ## Construction and `loadRom` -/

theorem installFont_spec (k : Nat) : ∀ (i : Nat) (ram : Nat → Nat) (a : Nat),
    installFont k i ram a = if i ≤ a ∧ a < i + k then fontData.getD a 0 else ram a := by
  induction k with
  | zero =>
    intro i ram a
    rw [if_neg (by omega)]
    rfl
  | succ k ih =>
    intro i ram a
    unfold installFont
    rw [ih]
    by_cases h1 : a = i
    · subst h1
      rw [if_neg (by omega), if_pos (by omega), write_same]
    · rw [write_other _ _ _ _ h1]
      by_cases h2 : i + 1 ≤ a ∧ a < i + 1 + k
      · rw [if_pos h2, if_pos (by omega)]
      · rw [if_neg h2, if_neg (by omega)]

/-- The RAM of `Memory.new` is what the font loop of the constructor leaves of the zeroed
RAM. -/
theorem installFont_eq_new (a : Nat) :
    installFont fontData.length 0 (fun _ => 0) a = Memory.new.ram a := by
  rw [installFont_spec]
  by_cases h : 0 ≤ a ∧ a < 0 + fontData.length
  · rw [if_pos h]
    rfl
  · rw [if_neg h]
    have hlen : fontData.length ≤ a := by omega
    exact (List.getD_eq_default fontData 0 hlen).symm

theorem loadRomLoop_spec (buffer : List Nat) (k : Nat) : ∀ (i : Nat) (ram : Nat → Nat),
    0x200 + i + k ≤ 4096 →
    ∃ r, loadRomLoop buffer k i ram = .ok r ∧
      ∀ a, r a = if 0x200 + i ≤ a ∧ a < 0x200 + i + k then buffer.getD (a - 0x200) 0
        else ram a := by
  induction k with
  | zero =>
    intro i ram _
    refine ⟨ram, rfl, fun a => ?_⟩
    rw [if_neg (by omega)]
  | succ k ih =>
    intro i ram hk
    unfold loadRomLoop
    rw [if_pos (show programEntry + i < ramSize by unfold programEntry ramSize; omega)]
    have hmod : (i + 1) % 65536 = i + 1 := Nat.mod_eq_of_lt (by omega)
    rw [hmod]
    obtain ⟨r, hr, hra⟩ := ih (i + 1) (write ram (programEntry + i) (buffer.getD i 0))
      (by omega)
    refine ⟨r, hr, fun a => ?_⟩
    rw [hra a]
    by_cases h1 : a = 0x200 + i
    · subst h1
      rw [if_neg (by omega), if_pos (by omega)]
      have e : 0x200 + i - 0x200 = i := by omega
      rw [e]
      exact write_same _ _ _
    · rw [write_other _ _ _ _ (show a ≠ programEntry + i from h1)]
      by_cases h2 : 0x200 + (i + 1) ≤ a ∧ a < 0x200 + (i + 1) + k
      · rw [if_pos h2, if_pos (by omega)]
      · rw [if_neg h2, if_neg (by omega)]

/-- C14: for every byte sequence of length `L ≤ 3584`, `loadRom` on the freshly constructed
memory returns (the loop ends and no write leaves RAM), leaves `ram[0x200 + i]` equal to
byte `i` for every `i < L`, and leaves every other cell as the constructor set it: the 80
font bytes at `0x000..0x04F`, zero elsewhere; stack, timers and display are untouched. -/
theorem loadRom_spec (buffer : List Nat) (hL : buffer.length ≤ 3584) :
    ∃ r, loadRom Memory.new buffer = .ok { Memory.new with ram := r } ∧
      (∀ i, i < buffer.length → buffer[i]? = some (r (0x200 + i))) ∧
      (∀ a, a < 0x200 ∨ 0x200 + buffer.length ≤ a → r a = Memory.new.ram a) ∧
      (∀ a, a < 80 → r a = fontData.getD a 0) ∧
      (∀ a, 80 ≤ a → a < 0x200 ∨ 0x200 + buffer.length ≤ a → r a = 0) := by
  obtain ⟨r, hr, hra⟩ := loadRomLoop_spec buffer buffer.length 0 Memory.new.ram (by omega)
  have hout : ∀ a, a < 0x200 ∨ 0x200 + buffer.length ≤ a → r a = Memory.new.ram a := by
    intro a ha
    rw [hra a, if_neg (by omega)]
  refine ⟨r, ?_, ?_, hout, ?_, ?_⟩
  · unfold loadRom
    rw [hr]
  · intro i hi
    rw [hra (0x200 + i), if_pos (by omega), List.getElem?_eq_getElem hi]
    congr 1
    have e : 0x200 + i - 0x200 = i := by omega
    rw [e]
    exact (List.getD_eq_getElem buffer 0 hi).symm
  · intro a ha
    rw [hout a (Or.inl (by omega))]
    rfl
  · intro a ha hb
    rw [hout a hb]
    exact List.getD_eq_default fontData 0 (show fontData.length ≤ a from ha)

/-- C14 witness: the program `6005 7003 8014 00EE`. -/
theorem loadRom_spec_witness :
    ∃ r, loadRom Memory.new romBytes = .ok { Memory.new with ram := r } ∧
      (∀ i, i < romBytes.length → romBytes[i]? = some (r (0x200 + i))) ∧
      (∀ a, a < 0x200 ∨ 0x200 + romBytes.length ≤ a → r a = Memory.new.ram a) ∧
      (∀ a, a < 80 → r a = fontData.getD a 0) ∧
      (∀ a, 80 ≤ a → a < 0x200 ∨ 0x200 + romBytes.length ≤ a → r a = 0) :=
  loadRom_spec romBytes (by decide)

/-! ## Timers -/

theorem decrementTimers_fields (mem : Memory) :
    (decrementTimers mem).delayTimer = mem.delayTimer - 1 ∧
    (decrementTimers mem).soundTimer = mem.soundTimer - 1 ∧
    (decrementTimers mem).ram = mem.ram ∧ (decrementTimers mem).stack = mem.stack ∧
    (decrementTimers mem).display = mem.display := by
  unfold decrementTimers
  by_cases hd : mem.delayTimer > 0 <;> by_cases hs : mem.soundTimer > 0 <;>
    simp [hd, hs] <;> omega

theorem decrementTimers_iterate (mem : Memory) (k : Nat) :
    (decrementTimers^[k] mem).delayTimer = mem.delayTimer - k ∧
    (decrementTimers^[k] mem).soundTimer = mem.soundTimer - k := by
  induction k with
  | zero => exact ⟨rfl, rfl⟩
  | succ k ih =>
    rw [Function.iterate_succ_apply']
    obtain ⟨h1, h2, -⟩ := decrementTimers_fields (decrementTimers^[k] mem)
    rw [h1, h2, ih.1, ih.2]
    omega

/-- C15: one call of `decrementTimers` maps `delayTimer = d` to `d - 1` if `d > 0` and to
`0` if `d = 0`, and `soundTimer = s` likewise, each whatever the other timer holds, and
touches nothing else; after any number `k` of calls the timers hold `d - k` resp. `s - k`
floored at `0`, so they never exceed their starting values (no wrap to 255). -/
theorem timer_floor (mem : Memory) (k : Nat) :
    (decrementTimers mem).delayTimer =
      (if mem.delayTimer > 0 then mem.delayTimer - 1 else 0) ∧
    (decrementTimers mem).soundTimer =
      (if mem.soundTimer > 0 then mem.soundTimer - 1 else 0) ∧
    (decrementTimers mem).ram = mem.ram ∧ (decrementTimers mem).stack = mem.stack ∧
    (decrementTimers mem).display = mem.display ∧
    (decrementTimers^[k] mem).delayTimer =
      (if k ≤ mem.delayTimer then mem.delayTimer - k else 0) ∧
    (decrementTimers^[k] mem).soundTimer =
      (if k ≤ mem.soundTimer then mem.soundTimer - k else 0) ∧
    (decrementTimers^[k] mem).delayTimer ≤ mem.delayTimer ∧
    (decrementTimers^[k] mem).soundTimer ≤ mem.soundTimer := by
  obtain ⟨h1, h2, h3, h4, h5⟩ := decrementTimers_fields mem
  obtain ⟨i1, i2⟩ := decrementTimers_iterate mem k
  refine ⟨?_, ?_, h3, h4, h5, ?_, ?_, ?_, ?_⟩
  · rw [h1]; split <;> omega
  · rw [h2]; split <;> omega
  · rw [i1]; split <;> omega
  · rw [i2]; split <;> omega
  · rw [i1]; omega
  · rw [i2]; omega

/-! ## End to end: `6005 7003 8014 00EE` -/

/-- C16: with `60 05 70 03 80 14 00 EE` loaded at `0x200` into freshly constructed memory,
three fetch/decodeAndExecute steps of the freshly constructed CPU return and leave
`v[0] = 8`, `v[0xF] = 0`, `pc = 0x206` and an empty stack; the fourth fetch returns `00EE`
and the fourth step pops the empty stack, a stack underflow. -/
theorem rom_end_to_end (r1 r2 r3 r4 : Nat) :
    ∃ m0 c1 m1 c2 m2 c3 m3 c4, loadRom Memory.new romBytes = .ok m0 ∧
      step CPU.new m0 r1 = .ok (c1, m1) ∧ step c1 m1 r2 = .ok (c2, m2) ∧
      step c2 m2 r3 = .ok (c3, m3) ∧
      c3.v 0 = 8 ∧ c3.v 0x0F = 0 ∧ c3.pc = 0x206 ∧ m3.stack = [] ∧
      fetch c3 m3 = .ok (0x00EE, c4) ∧
      step c3 m3 r4 = .error .stackUnderflow :=
  ⟨_, _, _, _, _, _, _, _, rfl, rfl, rfl, rfl, rfl, rfl, rfl, rfl, rfl, rfl⟩

/-! ## Key skips, `Ex9E` and `ExA1` -/

/-- C20 at the failing input, the program `6010 E09E` on the freshly constructed machine:
the first step leaves `v[0] = 16`, a value a register can hold; the second step fetches
`E09E` and reads `keyState[16]`, outside the 16-entry keypad.  `E0A1` does the same read. -/
theorem key_lookup_out_of_range (r1 r2 r3 : Nat) :
    ∃ m0 c1 m1 c2, loadRom Memory.new keyRomBytes = .ok m0 ∧
      step CPU.new m0 r1 = .ok (c1, m1) ∧ c1.v 0 = 16 ∧ c1.v 0 ≤ 255 ∧
      ¬ (c1.v 0 < keyCount) ∧ fetch c1 m1 = .ok (0xE09E, c2) ∧
      step c1 m1 r2 = .error .keyOutOfBounds ∧
      decodeAndExecute c1 m1 0xE0A1 r3 = .error .keyOutOfBounds :=
  ⟨_, _, _, _, rfl, rfl, rfl, by decide, by decide, rfl, rfl, rfl⟩

/-- Where the key lookup is in range, `v[x] < 16`, the skips are as the opcode table says:
`Ex9E` returns with `pc` advanced by 2 (as a 16-bit value) exactly when key `v[x]` is
held, `ExA1` exactly when it is not, and nothing but `pc` changes. -/
theorem key_skip_in_range (c : CPU) (mem : Memory) (x rnd : Nat) (hx : x < 16)
    (hk : c.v x < 16) :
    decodeAndExecute c mem (encode 0xE x 9 0xE) rnd =
      .ok (if c.keyState (c.v x) = true then { c with pc := (c.pc + 2) % 65536 } else c, mem) ∧
    decodeAndExecute c mem (encode 0xE x 0xA 1) rnd =
      .ok (if c.keyState (c.v x) = true then c else { c with pc := (c.pc + 2) % 65536 }, mem) := by
  constructor
  · rw [decodeAndExecute_E c mem x 9 0xE rnd hx (by omega) (by omega)]
    unfold decodeE
    rw [if_pos (show c.v x < keyCount from hk)]
  · rw [decodeAndExecute_E c mem x 0xA 1 rnd hx (by omega) (by omega)]
    unfold decodeE
    rw [if_pos (show c.v x < keyCount from hk)]
    cases c.keyState (c.v x) <;> rfl

/-! ## Sprite drawing: which cells change, and the collision flag -/

theorem drawRow_succ (sprite y j xc : Nat) (v d : Nat → Nat) (hy : y ≤ 31) (hxc : xc ≤ 63) :
    drawRow sprite y (j + 1) xc v d =
      if xc = 63 then
        .ok (if d (y * 64 + xc) ≠ 0 ∧ d (y * 64 + xc) ^^^ ((sprite >>> j) &&& 1) = 0
              then write v 0x0F 1 else v,
            write d (y * 64 + xc) (d (y * 64 + xc) ^^^ ((sprite >>> j) &&& 1)))
      else
        drawRow sprite y j (xc + 1)
          (if d (y * 64 + xc) ≠ 0 ∧ d (y * 64 + xc) ^^^ ((sprite >>> j) &&& 1) = 0
            then write v 0x0F 1 else v)
          (write d (y * 64 + xc) (d (y * 64 + xc) ^^^ ((sprite >>> j) &&& 1))) := by
  have hidx : (y * width + xc) % 65536 = y * 64 + xc := by
    unfold width
    omega
  have hlt : y * 64 + xc < displaySize := by
    unfold displaySize width length
    omega
  rw [drawRow]
  simp only
  rw [hidx, if_pos hlt, write_same]
  by_cases h63 : xc = 63
  · rw [if_pos h63, if_pos (by omega)]
  · rw [if_neg h63, if_neg (by omega), Nat.mod_eq_of_lt (show xc + 1 < 256 by omega)]

/-- What one sprite row does to the display: the cells of the row from the start column on
are XORed with the sprite bits, most significant bit first, and no other cell changes. -/
theorem drawRow_display (sprite y : Nat) (hy : y ≤ 31) (j : Nat) :
    ∀ (xc : Nat) (v d v' d' : Nat → Nat), xc ≤ 63 →
      drawRow sprite y j xc v d = .ok (v', d') →
      ∀ q, d' q = if inRow y xc j q
        then d q ^^^ ((sprite >>> (j - 1 - (q % 64 - xc))) &&& 1) else d q := by
  induction j with
  | zero =>
    intro xc v d v' d' _ h q
    simp only [drawRow, Except.ok.injEq, Prod.mk.injEq] at h
    obtain ⟨rfl, rfl⟩ := h
    rw [if_neg (by unfold inRow; omega)]
  | succ j ih =>
    intro xc v d v' d' hxc h q
    rw [drawRow_succ sprite y j xc v d hy hxc] at h
    by_cases h63 : xc = 63
    · rw [if_pos h63] at h
      simp only [Except.ok.injEq, Prod.mk.injEq] at h
      obtain ⟨-, rfl⟩ := h
      by_cases hq : q = y * 64 + xc
      · subst hq
        rw [write_same, if_pos (by unfold inRow; omega)]
        have e : j + 1 - 1 - ((y * 64 + xc) % 64 - xc) = j := by omega
        rw [e]
      · rw [write_other _ _ _ _ hq, if_neg (by unfold inRow; omega)]
    · rw [if_neg h63] at h
      rw [ih (xc + 1) _ _ v' d' (by omega) h q]
      by_cases hq : q = y * 64 + xc
      · subst hq
        rw [if_neg (by unfold inRow; omega), write_same, if_pos (by unfold inRow; omega)]
        have e : j + 1 - 1 - ((y * 64 + xc) % 64 - xc) = j := by omega
        rw [e]
      · rw [write_other _ _ _ _ hq]
        by_cases hin : inRow y (xc + 1) j q
        · rw [if_pos hin, if_pos (by unfold inRow at hin ⊢; omega)]
          have e : j - 1 - (q % 64 - (xc + 1)) = j + 1 - 1 - (q % 64 - xc) := by
            unfold inRow at hin
            omega
          rw [e]
        · rw [if_neg hin, if_neg (by unfold inRow at hin ⊢; omega)]

/-- What one sprite row does to `v[0xF]`: it becomes 1 if a cell of the row went from
non-zero to zero, and keeps its value otherwise. -/
theorem drawRow_flag (sprite y : Nat) (hy : y ≤ 31) (j : Nat) :
    ∀ (xc : Nat) (v d v' d' : Nat → Nat), xc ≤ 63 →
      drawRow sprite y j xc v d = .ok (v', d') →
      ((∃ q, inRow y xc j q ∧ d q ≠ 0 ∧ d' q = 0) → v' 0x0F = 1) ∧
      ((¬ ∃ q, inRow y xc j q ∧ d q ≠ 0 ∧ d' q = 0) → v' 0x0F = v 0x0F) := by
  induction j with
  | zero =>
    intro xc v d v' d' _ h
    simp only [drawRow, Except.ok.injEq, Prod.mk.injEq] at h
    obtain ⟨rfl, rfl⟩ := h
    refine ⟨?_, fun _ => rfl⟩
    rintro ⟨q, hq, -⟩
    unfold inRow at hq
    omega
  | succ j ih =>
    intro xc v d v' d' hxc h
    have hdisp := drawRow_display sprite y hy (j + 1) xc v d v' d' hxc h
    have hcell : d' (y * 64 + xc) = d (y * 64 + xc) ^^^ ((sprite >>> j) &&& 1) := by
      rw [hdisp, if_pos (by unfold inRow; omega)]
      have e : j + 1 - 1 - ((y * 64 + xc) % 64 - xc) = j := by omega
      rw [e]
    rw [drawRow_succ sprite y j xc v d hy hxc] at h
    by_cases hp : d (y * 64 + xc) ≠ 0 ∧ d (y * 64 + xc) ^^^ ((sprite >>> j) &&& 1) = 0
    · -- the first cell of the row collides
      rw [if_pos hp] at h
      have hone : v' 0x0F = 1 := by
        by_cases h63 : xc = 63
        · rw [if_pos h63] at h
          simp only [Except.ok.injEq, Prod.mk.injEq] at h
          obtain ⟨rfl, -⟩ := h
          exact write_same _ _ _
        · rw [if_neg h63] at h
          obtain ⟨i1, i2⟩ := ih (xc + 1) _ _ v' d' (by omega) h
          by_cases hex : ∃ q, inRow y (xc + 1) j q ∧
              write d (y * 64 + xc) (d (y * 64 + xc) ^^^ ((sprite >>> j) &&& 1)) q ≠ 0 ∧
              d' q = 0
          · exact i1 hex
          · rw [i2 hex]
            exact write_same _ _ _
      refine ⟨fun _ => hone, fun hno => ?_⟩
      exact absurd ⟨y * 64 + xc, by unfold inRow; omega, hp.1, by rw [hcell]; exact hp.2⟩ hno
    · -- the first cell of the row does not collide
      rw [if_neg hp] at h
      by_cases h63 : xc = 63
      · rw [if_pos h63] at h
        simp only [Except.ok.injEq, Prod.mk.injEq] at h
        obtain ⟨rfl, -⟩ := h
        refine ⟨?_, fun _ => rfl⟩
        rintro ⟨q, hq, hq1, hq2⟩
        have hqe : q = y * 64 + xc := by
          unfold inRow at hq
          omega
        subst hqe
        rw [hcell] at hq2
        exact absurd ⟨hq1, hq2⟩ hp
      · rw [if_neg h63] at h
        obtain ⟨i1, i2⟩ := ih (xc + 1) _ _ v' d' (by omega) h
        constructor
        · rintro ⟨q, hq, hq1, hq2⟩
          by_cases hqe : q = y * 64 + xc
          · subst hqe
            rw [hcell] at hq2
            exact absurd ⟨hq1, hq2⟩ hp
          · apply i1
            refine ⟨q, by unfold inRow at hq ⊢; omega, ?_, hq2⟩
            rw [write_other _ _ _ _ hqe]
            exact hq1
        · intro hno
          apply i2
          rintro ⟨q, hq, hq1, hq2⟩
          have hqe : q ≠ y * 64 + xc := by
            unfold inRow at hq
            omega
          rw [write_other _ _ _ _ hqe] at hq1
          exact hno ⟨q, by unfold inRow at hq ⊢; omega, hq1, hq2⟩

theorem drawRows_succ (ram : Nat → Nat) (iReg x k i xc yc : Nat) (v d v' d' : Nat → Nat)
    (h : drawRows ram iReg x (k + 1) i xc yc v d = .ok (v', d')) :
    ∃ va da, drawRow (ram (iReg + i)) yc 8 xc v d = .ok (va, da) ∧
      if (yc + 1) % 256 > 31 then va = v' ∧ da = d'
      else drawRows ram iReg x k (i + 1) (va x &&& 63) ((yc + 1) % 256) va da = .ok (v', d') := by
  rw [drawRows] at h
  simp only at h
  split at h
  · cases hr : drawRow (ram (iReg + i)) yc 8 xc v d with
    | error f =>
      rw [hr] at h
      cases h
    | ok p =>
      obtain ⟨va, da⟩ := p
      rw [hr] at h
      simp only at h
      refine ⟨va, da, rfl, ?_⟩
      by_cases hy : (yc + 1) % 256 > 31
      · rw [if_pos hy] at h ⊢
        simp only [Except.ok.injEq, Prod.mk.injEq] at h
        exact h
      · rw [if_neg hy] at h ⊢
        exact h
  · cases h

/-- What the rows of a sprite do to the display when `x ≠ 0xF`: the cells of the clipped
sprite rectangle are XORed with their sprite bits and no other cell changes. -/
theorem drawRows_display (ram : Nat → Nat) (iReg x : Nat) (hx : x ≠ 0x0F) (k : Nat) :
    ∀ (i xc yc : Nat) (v d v' d' : Nat → Nat), xc ≤ 63 → yc ≤ 31 → v x &&& 63 = xc →
      drawRows ram iReg x k i xc yc v d = .ok (v', d') →
      ∀ q, d' q = if inSprite xc yc k q
        then d q ^^^ spriteBit ram (iReg + i) xc yc q else d q := by
  induction k with
  | zero =>
    intro i xc yc v d v' d' _ _ _ h q
    simp only [drawRows, Except.ok.injEq, Prod.mk.injEq] at h
    obtain ⟨rfl, rfl⟩ := h
    rw [if_neg (by omega)]
  | succ k ih =>
    intro i xc yc v d v' d' hxc hyc hvx h q
    obtain ⟨va, da, hrow, hrest⟩ := drawRows_succ ram iReg x k i xc yc v d v' d' h
    have hda := drawRow_display (ram (iReg + i)) yc hyc 8 xc v d va da hxc hrow q
    have hva : va x &&& 63 = xc := by
      rw [drawRow_v _ yc 8 xc v d va da hrow x hx]
      exact hvx
    by_cases hy : (yc + 1) % 256 > 31
    · rw [if_pos hy] at hrest
      obtain ⟨-, rfl⟩ := hrest
      rw [hda]
      by_cases hin : inRow yc xc 8 q
      · rw [if_pos hin, if_pos (by omega)]
        unfold spriteBit
        have e1 : iReg + i + (q / 64 - yc) = iReg + i := by omega
        have e2 : 8 - 1 - (q % 64 - xc) = 7 - (q % 64 - xc) := by omega
        rw [e1, e2]
      · rw [if_neg hin, if_neg (by omega)]
    · rw [if_neg hy, hva, Nat.mod_eq_of_lt (show yc + 1 < 256 by omega)] at hrest
      rw [ih (i + 1) xc (yc + 1) va da v' d' hxc (by omega) hva hrest q, hda]
      by_cases hin : inRow yc xc 8 q
      · rw [if_neg (by omega), if_pos hin, if_pos (by omega)]
        unfold spriteBit
        have e1 : iReg + i + (q / 64 - yc) = iReg + i := by omega
        have e2 : 8 - 1 - (q % 64 - xc) = 7 - (q % 64 - xc) := by omega
        rw [e1, e2]
      · rw [if_neg hin]
        by_cases hin2 : inSprite xc (yc + 1) k q
        · rw [if_pos hin2, if_pos (by omega)]
          unfold spriteBit
          have e1 : iReg + (i + 1) + (q / 64 - (yc + 1)) = iReg + i + (q / 64 - yc) := by
            omega
          rw [e1]
        · rw [if_neg hin2, if_neg (by omega)]

/-- What the rows of a sprite do to `v[0xF]` when `x ≠ 0xF`: it becomes 1 if a cell of the
clipped sprite rectangle went from non-zero to zero, and keeps its value otherwise. -/
theorem drawRows_flag (ram : Nat → Nat) (iReg x : Nat) (hx : x ≠ 0x0F) (k : Nat) :
    ∀ (i xc yc : Nat) (v d v' d' : Nat → Nat), xc ≤ 63 → yc ≤ 31 → v x &&& 63 = xc →
      drawRows ram iReg x k i xc yc v d = .ok (v', d') →
      ((∃ q, inSprite xc yc k q ∧ d q ≠ 0 ∧ d' q = 0) → v' 0x0F = 1) ∧
      ((¬ ∃ q, inSprite xc yc k q ∧ d q ≠ 0 ∧ d' q = 0) → v' 0x0F = v 0x0F) := by
  induction k with
  | zero =>
    intro i xc yc v d v' d' _ _ _ h
    simp only [drawRows, Except.ok.injEq, Prod.mk.injEq] at h
    obtain ⟨rfl, rfl⟩ := h
    refine ⟨?_, fun _ => rfl⟩
    rintro ⟨q, hq, -⟩
    omega
  | succ k ih =>
    intro i xc yc v d v' d' hxc hyc hvx h
    obtain ⟨va, da, hrow, hrest⟩ := drawRows_succ ram iReg x k i xc yc v d v' d' h
    have hda := drawRow_display (ram (iReg + i)) yc hyc 8 xc v d va da hxc hrow
    obtain ⟨r1, r2⟩ := drawRow_flag (ram (iReg + i)) yc hyc 8 xc v d va da hxc hrow
    have hva : va x &&& 63 = xc := by
      rw [drawRow_v _ yc 8 xc v d va da hrow x hx]
      exact hvx
    by_cases hy : (yc + 1) % 256 > 31
    · rw [if_pos hy] at hrest
      obtain ⟨rfl, rfl⟩ := hrest
      constructor
      · rintro ⟨q, hq, hq1, hq2⟩
        exact r1 ⟨q, by omega, hq1, hq2⟩
      · intro hno
        apply r2
        rintro ⟨q, hq, hq1, hq2⟩
        exact hno ⟨q, by omega, hq1, hq2⟩
    · rw [if_neg hy, hva, Nat.mod_eq_of_lt (show yc + 1 < 256 by omega)] at hrest
      have hd' := drawRows_display ram iReg x hx k (i + 1) xc (yc + 1) va da v' d' hxc
        (by omega) hva hrest
      obtain ⟨i1, i2⟩ := ih (i + 1) xc (yc + 1) va da v' d' hxc (by omega) hva hrest
      constructor
      · rintro ⟨q, hq, hq1, hq2⟩
        by_cases hin : inRow yc xc 8 q
        · have hsame : d' q = da q := by rw [hd' q, if_neg (by omega)]
          have hva1 : va 0x0F = 1 := r1 ⟨q, hin, hq1, by rw [← hsame]; exact hq2⟩
          by_cases hex : ∃ q, inSprite xc (yc + 1) k q ∧ da q ≠ 0 ∧ d' q = 0
          · exact i1 hex
          · rw [i2 hex]
            exact hva1
        · apply i1
          refine ⟨q, by omega, ?_, hq2⟩
          rw [hda q, if_neg hin]
          exact hq1
      · intro hno
        have hnrow : ¬ ∃ q, inRow yc xc 8 q ∧ d q ≠ 0 ∧ da q = 0 := by
          rintro ⟨q, hq, hq1, hq2⟩
          have hsame : d' q = da q := by rw [hd' q, if_neg (by omega)]
          exact hno ⟨q, by omega, hq1, by rw [hsame]; exact hq2⟩
        have hnrest : ¬ ∃ q, inSprite xc (yc + 1) k q ∧ da q ≠ 0 ∧ d' q = 0 := by
          rintro ⟨q, hq, hq1, hq2⟩
          have hsame : da q = d q := by rw [hda q, if_neg (by omega)]
          exact hno ⟨q, by omega, by rw [← hsame]; exact hq1, hq2⟩
        rw [i2 hnrest, r2 hnrow]

theorem and63 (a : Nat) : a &&& 63 = a % 64 := Nat.and_pow_two_sub_one_eq_mod a 6

/-- The display accesses of the sprite loops never leave the display. -/
theorem drawRows_no_display_fault (ram : Nat → Nat) (iReg x : Nat) (k : Nat) :
    ∀ (i xc yc : Nat) (v d : Nat → Nat), xc ≤ 63 → yc ≤ 31 →
      drawRows ram iReg x k i xc yc v d ≠ .error .displayOutOfBounds := by
  induction k with
  | zero =>
    intro i xc yc v d _ _ h
    simp only [drawRows] at h
    cases h
  | succ k ih =>
    intro i xc yc v d hxc hyc h
    rw [drawRows] at h
    simp only at h
    split at h
    · obtain ⟨⟨va, da⟩, hr⟩ := drawRow_ok (ram (iReg + i)) yc hyc 8 xc v d hxc
      rw [hr] at h
      simp only at h
      split at h
      · cases h
      · have hx63 : va x &&& 63 ≤ 63 := Nat.and_le_right
        exact ih _ _ _ _ _ hx63 (by omega) h
    · cases h

/-- Effect of `drawGraphics` for `x ≠ 0xF`, whenever it returns: only the display and
`v[0xF]` change; the cells of the clipped sprite rectangle at
`(v[x] mod 64, v[y] mod 32)` are XORed with their sprite bits; `v[0xF]` is 1 if one of
them went from non-zero to zero and 0 otherwise. -/
theorem drawGraphics_spec (c c' : CPU) (mem mem' : Memory) (x y n : Nat) (hx : x ≠ 0x0F)
    (h : drawGraphics c mem x y n = .ok (c', mem')) :
    c' = { c with v := c'.v } ∧ mem' = { mem with display := mem'.display } ∧
    (∀ r, r ≠ 0x0F → c'.v r = c.v r) ∧
    (∀ q, mem'.display q = if inSprite (c.v x % 64) (c.v y % 32) n q
      then mem.display q ^^^ spriteBit mem.ram c.iReg (c.v x % 64) (c.v y % 32) q
      else mem.display q) ∧
    ((∃ q, inSprite (c.v x % 64) (c.v y % 32) n q ∧ mem.display q ≠ 0 ∧ mem'.display q = 0) →
      c'.v 0x0F = 1) ∧
    ((¬ ∃ q, inSprite (c.v x % 64) (c.v y % 32) n q ∧ mem.display q ≠ 0 ∧
      mem'.display q = 0) → c'.v 0x0F = 0) := by
  unfold drawGraphics at h
  simp only at h
  cases hr : drawRows mem.ram c.iReg x n 0 (c.v x % width) (c.v y % length)
      (write c.v 0x0F 0) mem.display with
  | error f =>
    rw [hr] at h
    cases h
  | ok p =>
    obtain ⟨v1, d1⟩ := p
    rw [hr] at h
    simp only [Except.ok.injEq, Prod.mk.injEq] at h
    obtain ⟨rfl, rfl⟩ := h
    have hxc : c.v x % width ≤ 63 := by unfold width; omega
    have hyc : c.v y % length ≤ 31 := by unfold length; omega
    have hvx : (write c.v 0x0F 0) x &&& 63 = c.v x % width := by
      rw [write_other _ _ _ _ hx, and63]
      rfl
    have hd := drawRows_display mem.ram c.iReg x hx n 0 _ _ _ _ v1 d1 hxc hyc hvx hr
    obtain ⟨f1, f2⟩ := drawRows_flag mem.ram c.iReg x hx n 0 _ _ _ _ v1 d1 hxc hyc hvx hr
    refine ⟨rfl, rfl, ?_, ?_, f1, ?_⟩
    · intro r hr'
      show v1 r = c.v r
      rw [drawRows_v _ _ _ _ _ _ _ _ _ _ _ hr r hr']
      exact write_other _ _ _ _ hr'
    · exact hd
    · intro hno
      have h0 := f2 hno
      rw [write_same] at h0
      exact h0

/-- C17 at the failing input `x = 0xF`, `y = 0`, `n = 2`, `v[0xF] = 5`, `iReg = 0` (the glyph
`F0 90 ...`): `DF02` draws row 0 from column `5 = v[0xF] mod 64` (cells 5..8 lit) but row 1
from column 0 (cells 64 and 67 lit, cells 69 and 72 not), because the start column of the
later rows is read from `v[0xF]` after it was cleared. -/
theorem draw_column_aliased :
    ∃ c m, decodeAndExecute flagSpriteRegs Memory.new 0xDF02 0 = .ok (c, m) ∧
      flagSpriteRegs.v 0x0F % 64 = 5 ∧ flagSpriteRegs.v 0 % 32 = 0 ∧
      m.display 5 = 1 ∧ m.display 8 = 1 ∧ m.display 0 = 0 ∧
      m.display (64 + 0) = 1 ∧ m.display (64 + 3) = 1 ∧
      m.display (64 + 5) = 0 ∧ m.display (64 + 8) = 0 :=
  ⟨_, _, rfl, by decide, by decide, by decide, by decide, by decide, by decide, by decide,
    by decide, by decide⟩

/-- C18: for a display of cells 0 or 1, `n` in `0..15`, `x`, `y` other than `0xF` and the
`n` sprite bytes inside RAM, `Dxyn` returns; each cell of the clipped sprite rectangle
ends as its old value XOR its sprite bit (most significant bit first); `v[0xF]` is 1 iff
one of these cells went from 1 to 0 and is 0 otherwise, in particular when `n = 0` and when
no set sprite bit meets a lit cell. -/
theorem draw_collision_flag (c : CPU) (mem : Memory) (x y n rnd : Nat) (hx : x < 15)
    (hy : y < 15) (hn : n < 16) (hram : c.iReg + n ≤ 4096)
    (hcell : ∀ q, mem.display q ≤ 1) :
    ∃ c' mem', decodeAndExecute c mem (encode 0xD x y n) rnd = .ok (c', mem') ∧
      (∀ q, inSprite (c.v x % 64) (c.v y % 32) n q → mem'.display q =
        mem.display q ^^^ spriteBit mem.ram c.iReg (c.v x % 64) (c.v y % 32) q) ∧
      (c'.v 0x0F = 1 ↔
        ∃ q, inSprite (c.v x % 64) (c.v y % 32) n q ∧ mem.display q = 1 ∧
          mem'.display q = 0) ∧
      (c'.v 0x0F = 0 ↔
        ¬ ∃ q, inSprite (c.v x % 64) (c.v y % 32) n q ∧ mem.display q = 1 ∧
          mem'.display q = 0) ∧
      (n = 0 → c'.v 0x0F = 0) ∧
      ((∀ q, inSprite (c.v x % 64) (c.v y % 32) n q →
          ¬ (spriteBit mem.ram c.iReg (c.v x % 64) (c.v y % 32) q = 1 ∧ mem.display q = 1)) →
        c'.v 0x0F = 0) := by
  have hx' : x ≠ 0x0F := by omega
  rw [decodeAndExecute_D c mem x y n rnd (by omega) (by omega) hn]
  obtain ⟨⟨v1, d1⟩, h1⟩ := drawRows_ok mem.ram c.iReg x n 0 (c.v x % width) (c.v y % length)
    (write c.v 0x0F 0) mem.display (by omega) (by unfold width; omega)
    (by unfold length; omega)
  have hok : drawGraphics c mem x y n =
      .ok ({ c with v := v1 }, { mem with display := d1 }) := by
    simp only [drawGraphics, h1]
  obtain ⟨-, -, -, hd, f1, f2⟩ := drawGraphics_spec c _ mem _ x y n hx' hok
  have hiff : (∃ q, inSprite (c.v x % 64) (c.v y % 32) n q ∧ mem.display q ≠ 0 ∧ d1 q = 0) ↔
      ∃ q, inSprite (c.v x % 64) (c.v y % 32) n q ∧ mem.display q = 1 ∧ d1 q = 0 := by
    constructor
    · rintro ⟨q, hq, hq1, hq2⟩
      have := hcell q
      exact ⟨q, hq, by omega, hq2⟩
    · rintro ⟨q, hq, hq1, hq2⟩
      exact ⟨q, hq, by omega, hq2⟩
  have hone : v1 0x0F = 1 ↔
      ∃ q, inSprite (c.v x % 64) (c.v y % 32) n q ∧ mem.display q = 1 ∧ d1 q = 0 := by
    constructor
    · intro hv
      by_cases hex : ∃ q, inSprite (c.v x % 64) (c.v y % 32) n q ∧ mem.display q ≠ 0 ∧
          d1 q = 0
      · exact hiff.mp hex
      · have h0 : v1 0x0F = 0 := f2 hex
        omega
    · intro hex
      exact f1 (hiff.mpr hex)
  have hzero : v1 0x0F = 0 ↔
      ¬ ∃ q, inSprite (c.v x % 64) (c.v y % 32) n q ∧ mem.display q = 1 ∧ d1 q = 0 := by
    constructor
    · intro hv hex
      have h1' : v1 0x0F = 1 := hone.mpr hex
      omega
    · intro hno
      exact f2 (fun hex => hno (hiff.mp hex))
  refine ⟨_, _, hok, ?_, hone, hzero, ?_, ?_⟩
  · intro q hq
    exact (hd q).trans (if_pos hq)
  · intro hn0
    apply hzero.mpr
    rintro ⟨q, hq, -⟩
    omega
  · intro hno
    apply hzero.mpr
    rintro ⟨q, hq, hq1, hq2⟩
    apply hno q hq
    refine ⟨?_, hq1⟩
    have hbit : spriteBit mem.ram c.iReg (c.v x % 64) (c.v y % 32) q ≤ 1 := Nat.and_le_right
    have hq3 : d1 q = mem.display q ^^^ spriteBit mem.ram c.iReg (c.v x % 64) (c.v y % 32) q :=
      (hd q).trans (if_pos hq)
    rw [hq3, hq1] at hq2
    rcases Nat.le_one_iff_eq_zero_or_eq_one.mp hbit with h0 | h0
    · rw [h0] at hq2
      exact absurd hq2 (by decide)
    · exact h0

/-- C18 witness: the glyph `F0 90 90 90 F0` drawn at `(0, 0)` on a display whose top left
pixel is lit: that pixel goes off and `v[0xF] = 1`. -/
theorem draw_collision_flag_witness :
    ∃ c' mem', decodeAndExecute CPU.new litMem (encode 0xD 0 1 5) 0 = .ok (c', mem') ∧
      mem'.display 0 = 0 ∧ mem'.display 1 = 1 ∧ c'.v 0x0F = 1 := by
  have hcell : ∀ q, litMem.display q ≤ 1 := by
    intro q
    show write (fun _ => 0) 0 1 q ≤ 1
    unfold write
    split
    · exact Nat.le_refl 1
    · exact Nat.zero_le 1
  obtain ⟨c', mem', h1, h2, h3, -⟩ := draw_collision_flag CPU.new litMem 0 1 5 0 (by decide)
    (by decide) (by decide) (by decide) hcell
  have e0 : mem'.display 0 = 0 := by
    rw [h2 0 (by decide)]
    decide
  have e1 : mem'.display 1 = 1 := by
    rw [h2 1 (by decide)]
    decide
  exact ⟨c', mem', h1, e0, e1, h3.mpr ⟨0, by decide, by decide, e0⟩⟩

/-- C19: for every state, `n` in `0..15` and `x ≠ 0xF`, with `x0 = v[x] mod 64` and
`y0 = v[y] mod 32`: `Dxyn` never accesses the display outside its 2048 cells, and when it
returns, every cell outside rows `y0 ≤ r < min (y0 + n) 32`, columns
`x0 ≤ c < min (x0 + 8) 64` is unchanged, so nothing wraps to the opposite edge or onto the
next row. -/
theorem draw_frame (c : CPU) (mem : Memory) (x y n rnd : Nat) (hx : x < 15) (hy : y < 16)
    (hn : n < 16) :
    decodeAndExecute c mem (encode 0xD x y n) rnd ≠ .error .displayOutOfBounds ∧
    ∀ c' mem', decodeAndExecute c mem (encode 0xD x y n) rnd = .ok (c', mem') →
      ∀ q, ¬ inSprite (c.v x % 64) (c.v y % 32) n q → mem'.display q = mem.display q := by
  have hx' : x ≠ 0x0F := by omega
  rw [decodeAndExecute_D c mem x y n rnd (by omega) hy hn]
  constructor
  · intro h
    unfold drawGraphics at h
    simp only at h
    split at h
    · rename_i e he
      simp only [Except.error.injEq] at h
      subst h
      exact drawRows_no_display_fault mem.ram c.iReg x n 0 _ _ _ _ (by unfold width; omega)
        (by unfold length; omega) he
    · cases h
  · intro c' mem' h q hq
    obtain ⟨-, -, -, hd, -⟩ := drawGraphics_spec c c' mem mem' x y n hx' h
    rw [hd q, if_neg hq]

/-- C19 witness: the glyph at address 0 drawn with `v[0] = 62`, `v[1] = 30`, two cells from
the right and bottom edges: the cells at the left edge of rows 30 and 31, the cell after
the last one and the top rows stay dark. -/
theorem draw_frame_witness :
    decodeAndExecute edgeRegs Memory.new (encode 0xD 0 1 5) 0 ≠ .error .displayOutOfBounds ∧
    ∃ c' mem', decodeAndExecute edgeRegs Memory.new (encode 0xD 0 1 5) 0 = .ok (c', mem') ∧
      mem'.display (30 * 64) = 0 ∧ mem'.display (31 * 64) = 0 ∧ mem'.display 62 = 0 ∧
      mem'.display 2048 = 0 := by
  have h := draw_frame edgeRegs Memory.new 0 1 5 0 (by decide) (by decide) (by decide)
  refine ⟨h.1, _, _, rfl, ?_, ?_, ?_, ?_⟩
  · exact h.2 _ _ rfl (30 * 64) (by decide)
  · exact h.2 _ _ rfl (31 * 64) (by decide)
  · exact h.2 _ _ rfl 62 (by decide)
  · exact h.2 _ _ rfl 2048 (by decide)

end Chip8
